import Mathlib

/-!
Verification of the Huffman coder of `src/huffman.cpp` (class `HFMTree`).

The C++ code is shallowly embedded.  Raw `Node*` pointers become the inductive
`Node` with a `null` constructor; machine bytes become `Nat` values; every
place where the C++ would dereference a null pointer or read or write outside
a container (undefined behavior) is modelled as `Option.none`.  Loops whose
termination is not structural carry explicit fuel and are always called with
provably sufficient fuel, so that all definitions compute by `rfl`/`decide`.
-/

namespace HFM

set_option maxRecDepth 8000

/-- Model of `HFMTree::Node` (a `Tree = Node*` pointer value): `null` is the
null pointer; `mk left right value` is a node whose `value` field holds the
`char` reinterpreted as a byte (the C++ stores `EOF`, i.e. `char` 0xFF,
byte 255, in non-leaf nodes built by `build_tree`). -/
inductive Node where
  | null : Node
  | mk (left : Node) (right : Node) (value : Nat) : Node
deriving DecidableEq, Repr

/-- Structural invariant of trees produced by `HFMTree::build_tree` (claim
C10): every node is a leaf (both children null) whose value is a symbol byte
in [0,127], or an internal node with two non-null children and value `EOF`
(byte 255). -/
def Node.wf : Node → Bool
  | .null => false
  | .mk .null .null v => decide (v ≤ 127)
  | .mk .null (.mk _ _ _) _ => false
  | .mk (.mk _ _ _) .null _ => false
  | .mk l r v => decide (v = 255) && l.wf && r.wf

/-- Height of a tree: leaves (and null) have height 0. -/
def Node.ht : Node → Nat
  | .null => 0
  | .mk .null .null _ => 0
  | .mk l r _ => max l.ht r.ht + 1

/-- Values carried by the leaves, left to right. -/
def Node.leafVals : Node → List Nat
  | .null => []
  | .mk .null .null v => [v]
  | .mk l r _ => l.leafVals ++ r.leafVals

/-- Leaf test in the sense of `HFMTree::_generate_code`: both children null. -/
def Node.isLeafB : Node → Bool
  | .mk .null .null _ => true
  | _ => false

/-- Model of `HFMTree::_sequence`, serializing a tree into bytes.  The leaf
test of the C++ is `t->left` alone; `uint8_t(t->value)` is the byte `v % 256`.
The result is `none` exactly when the C++ dereferences a null pointer (a null
tree, or a node with a non-null left child but a null right child). -/
def _sequence : Node → Option (List Nat)
  | .null => none
  | .mk .null _ v => some [128, v % 256, 129]
  | .mk l r v => do
      let sl ← _sequence l
      let sr ← _sequence r
      pure (128 :: (sl ++ (v % 256) :: (sr ++ [129])))

/-- Model of `HFMTree::Weighted_Node`: node fields plus a weight. -/
structure WNode where
  left : Node
  right : Node
  value : Nat
  weight : Nat
deriving DecidableEq, Repr

/-- Slicing a `Weighted_Node` to a `Node` (the move construction
`new Node(std::move(w))`). -/
def WNode.toNode (w : WNode) : Node := .mk w.left w.right w.value

/-- Extraction of a minimum-weight element, modelling `std::pop_heap` on the
heap ordered by `operator>=` on weights (a min-heap).  The C++ tie-break
among equal weights is left unspecified by the heap; the model
deterministically takes the first element of minimal weight. -/
def extractMin : List WNode → Option (WNode × List WNode)
  | [] => none
  | [x] => some (x, [])
  | x :: y :: l =>
    match extractMin (y :: l) with
    | none => none
    | some (m, l') =>
      if x.weight ≤ m.weight then some (x, y :: l) else some (m, x :: l')

/-- The zero-stripping loop `while (!heap.front().weight) { pop_heap;
pop_back; }` of `HFMTree::build_tree(Heap&)`.  Reading `heap.front()` of an
emptied heap — which happens when every weight is zero — is undefined
behavior, modelled `none`.  Fuel `length + 1` can never be exhausted. -/
def popZerosF : Nat → List WNode → Option (List WNode)
  | 0, _ => none
  | fuel + 1, l =>
    match extractMin l with
    | none => none
    | some (m, l') => if m.weight = 0 then popZerosF fuel l' else some l

/-- The merging loop of `HFMTree::build_tree(Heap&)`: while more than one
node remains, pop the two minimum-weight nodes (first popped = left child),
merge them into a node with value `EOF` (byte 255, the `Node(l, r)` default)
and summed weight, and push the merge back; finally move `heap[0]` out.
`heap[0]` of an empty heap is UB (`none`); each round shortens the list by
one, so fuel `length` suffices. -/
def mergeLoopF : Nat → List WNode → Option Node
  | _, [] => none
  | _, [x] => some x.toNode
  | 0, _ :: _ :: _ => none
  | fuel + 1, l@(_ :: _ :: _) =>
    match extractMin l with
    | none => none
    | some (a, l1) =>
      match extractMin l1 with
      | none => none
      | some (b, l2) =>
        mergeLoopF fuel (l2 ++ [⟨a.toNode, b.toNode, 255, a.weight + b.weight⟩])

/-- The two `std::runtime_error`s thrown by `HFMTree::build_tree(Heap&)`
("empty text" and "single-character-composed text"), under the names the
specification gives them. -/
inductive BuildError where
  | emptyInput : BuildError
  | singleSymbol : BuildError
deriving DecidableEq, Repr

/-- Model of `HFMTree::build_tree(Heap&)`: strip zero-weight entries, check
the two error cases, then merge.  (The `size() == 0` check is kept from the
source even though the stripping loop can only leave a non-empty heap or hit
UB first.) -/
def build_tree (heap : List WNode) : Option (Except BuildError Node) :=
  match popZerosF (heap.length + 1) heap with
  | none => none
  | some h =>
    if h.length = 0 then some (.error .emptyInput)
    else if h.length = 1 then some (.error .singleSymbol)
    else (mergeLoopF h.length h).map .ok

/-- Model of `HFMTree::build_tree(const std::string&)`: a 128-slot heap with
`heap[i].value = char(i)`, weights counted with `heap[i].weight++` per input
character.  A `char` outside [0,127] indexes the heap out of bounds (UB). -/
def build_tree_string (s : List Nat) : Option (Except BuildError Node) :=
  if s.all (· ≤ 127) then
    build_tree ((List.range 128).map fun i => ⟨.null, .null, i, s.count i⟩)
  else none

/-- Model of `HFMTree::build_tree(const Counter&)` for the 128-entry weight
table `w` (class `Counter` is always a vector of 128 counts). -/
def build_tree_counter (w : List Nat) : Option (Except BuildError Node) :=
  build_tree ((List.range 128).map fun i => ⟨.null, .null, i, w.getD i 0⟩)

/-- The nesting scan of `HFMTree::build_tree(RandomAccessIterator)`:
`while (count) { if (*p == 0x80) count++; else if (*p == 0x81) count--;
p++; }`, taking the bytes from `p` on and returning how many bytes the loop
consumed.  Dereferencing `p` past the end of the range is UB (`none`); fuel
beyond the list length is never exhausted.  The C++ counter is a `uint8_t`
and wraps to 0 once the nesting reaches 256, ending the scan early; the model
keeps the count as a `Nat`, so it coincides with the source only while the
count stays below 256.  Every claim theorem below that reaches the scan
therefore keeps its scope to trees of height at most 127 — the invariant
`build_tree` guarantees (`ht + 1 ≤ 128`, see `build_tree_heap128`), under
which the count never exceeds `ht + 2 ≤ 129`. -/
def scanClose : Nat → List Nat → Nat → Option Nat
  | _, _, 0 => some 0
  | 0, _, _ + 1 => none
  | _ + 1, [], _ + 1 => none
  | fuel + 1, b :: l, count + 1 =>
    (scanClose fuel l
      (if b = 128 then count + 2 else if b = 129 then count else count + 1)).map (· + 1)

/-- Model of `HFMTree::build_tree(begin, end)`: recursive-descent parse of a
serialized tree over the byte range `l`.  A range of exactly one byte yields
the null tree; otherwise `*(begin+1)` decides leaf versus internal; for an
internal node the split scan runs from `begin+2` with nesting count 1, the
byte `*p` at the split — the "filler" — becomes the new node's value, and the
children parse from `[begin+1, p)` and `[p+1, end-1)`.  Out-of-range reads
are UB (`none`).  Each recursion strictly shrinks the range, so fuel
`length + 1` suffices. -/
def build_tree_seqF : Nat → List Nat → Option Node
  | 0, _ => none
  | fuel + 1, l =>
    if l.length = 1 then some .null
    else
      match l[1]? with
      | none => none
      | some b =>
        if b = 128 then
          match scanClose (l.length + 1) (l.drop 2) 1 with
          | none => none
          | some consumed =>
            match l[2 + consumed]? with
            | none => none
            | some mid =>
              match build_tree_seqF fuel ((l.drop 1).take (2 + consumed - 1)),
                    build_tree_seqF fuel
                      ((l.drop (2 + consumed + 1)).take (l.length - 1 - (2 + consumed + 1))) with
              | some left, some right => some (.mk left right mid)
              | _, _ => none
        else some (.mk .null .null b)

/-- `HFMTree::build_tree(begin, end)` applied to a whole byte range. -/
def build_tree_seq (l : List Nat) : Option Node := build_tree_seqF (l.length + 1) l

/-- Model of `HFMTree::_generate_code`: walk the tree keeping the current
path in the fixed 128-slot bit buffer `std::vector<bool> path(128)` and write
each leaf's code into the 128-slot table (right subtree first with bit 1,
then left with bit 0, as in the source).  Writing `path[depth]` out of
bounds, indexing `code[size_t(value)]` with a negative `char` (byte ≥ 128)
and recursing into a null child are UB (`none`).  `Code(path, depth)` copies
`path` and resizes it to `depth`, extending with `false` beyond the copy. -/
def _generate_code :
    Node → List (List Bool) → List Bool → Nat → Option (List (List Bool) × List Bool)
  | .null, _, _, _ => none
  | .mk .null .null v, code, path, depth =>
    if v ≤ 127 then
      some (code.set v (path.take depth ++ List.replicate (depth - path.length) false), path)
    else none
  | .mk l r _, code, path, depth =>
    if depth < path.length then
      match _generate_code r code (path.set depth true) (depth + 1) with
      | none => none
      | some (code1, path1) =>
        if depth < path1.length then
          _generate_code l code1 (path1.set depth false) (depth + 1)
        else none
    else none

/-- Model of `HFMTree::generate_code`: 128 default (empty) codes, a 128-bit
path buffer, starting depth 0. -/
def generate_code (tree : Node) : Option (List (List Bool)) :=
  (_generate_code tree (List.replicate 128 []) (List.replicate 128 false) 0).map (·.1)

/-- State of the bit-packing loop of `HFMTree::encode`: payload bytes
emitted so far (the vector past its 8-byte length header), the byte being
filled (`cache`), and the current bit mask `p`. -/
structure EncSt where
  out : List Nat
  cache : Nat
  p : Nat
deriving DecidableEq, Repr

/-- One iteration of the inner loop of `HFMTree::encode`:
`if (c[j]) cache |= p; p >>= 1; if (!p) { result.emplace_back(cache);
cache = 0; p = 0x80; }`. -/
def pushBit (st : EncSt) (b : Bool) : EncSt :=
  let cache := if b then st.cache ||| st.p else st.cache
  let p := st.p / 2
  if p = 0 then ⟨st.out ++ [cache], 0, 128⟩ else ⟨st.out, cache, p⟩

/-- The `for (j < c.size())` loop of `HFMTree::encode`: push every bit of one
symbol's code. -/
def pushCode (st : EncSt) (c : List Bool) : EncSt := c.foldl pushBit st

/-- The outer loop of `HFMTree::encode` over the input characters; looking up
`code[std::size_t(i)]` outside the 128-entry table (a byte ≥ 128, i.e. a
negative `char`) is UB (`none`). -/
def encodeLoop (code : List (List Bool)) : List Nat → EncSt → Option EncSt
  | [], st => some st
  | c :: s, st =>
    match code[c]? with
    | none => none
    | some cd => encodeLoop code s (pushCode st cd)

/-- The trailing `do extra++; while (p >>= 1);` of `HFMTree::encode`,
counting the unused bit positions of the final partial byte.  Fuel 8 is
enough for every mask `p ≤ 128`. -/
def extraLoop : Nat → Nat → Nat
  | 0, _ => 0
  | fuel + 1, p => 1 + (if p / 2 = 0 then 0 else extraLoop fuel (p / 2))

/-- Model of `HFMTree::encode`: the returned pair is the bit length the C++
stores into the 8-byte header, `(result.size() - 8) * 8 - extra`, and the
payload bytes that follow the header. -/
def encode (code : List (List Bool)) (s : List Nat) : Option (Nat × List Nat) :=
  (encodeLoop code s ⟨[], 0, 128⟩).map fun st =>
    if st.p = 128 then (st.out.length * 8, st.out)
    else ((st.out.length + 1) * 8 - extraLoop 8 st.p, st.out ++ [st.cache])

/-- State of `HFMTree::decode`: decoded characters `v`, bits consumed
`count`, and the cursor `t` (a possibly-null node pointer). -/
structure DecSt where
  v : List Nat
  count : Nat
  t : Node
deriving DecidableEq, Repr

/-- The eight masks the inner loop `for (p = 0x80; p; p >>= 1)` of
`HFMTree::decode` runs through. -/
def masks : List Nat := [128, 64, 32, 16, 8, 4, 2, 1]

/-- The inner (per-byte) loop of `HFMTree::decode`: for each mask, step the
cursor to the right child on a set bit and to the left child otherwise; any
node whose value is not `EOF` (byte 255) counts as a leaf — emit its value,
reset the cursor to the root, and when exactly `l2` bits have been consumed
break out of the byte.  Stepping from, or reading the value of, a null
pointer is UB (`none`). -/
def decBits (root : Node) (l2 i : Nat) : List Nat → DecSt → Option DecSt
  | [], st => some st
  | p :: ps, st =>
    match st.t with
    | .null => none
    | .mk l r _ =>
      match (if i &&& p ≠ 0 then r else l) with
      | .null => none
      | .mk l1 r1 v1 =>
        if v1 ≠ 255 then
          if st.count + 1 = l2 then some ⟨st.v ++ [v1], st.count + 1, root⟩
          else decBits root l2 i ps ⟨st.v ++ [v1], st.count + 1, root⟩
        else decBits root l2 i ps ⟨st.v, st.count + 1, .mk l1 r1 v1⟩

/-- The outer loop of `HFMTree::decode` over the payload bytes; a break in
the inner loop only ends the current byte, the outer loop continues. -/
def decodeLoop (root : Node) (l2 : Nat) : List Nat → DecSt → Option DecSt
  | [], st => some st
  | i :: bs, st =>
    match decBits root l2 i masks st with
    | none => none
    | some st1 => decodeLoop root l2 bs st1

/-- Model of `HFMTree::decode(begin, end, l2)`: walk the tree over the byte
range under the bit budget `l2` and return the decoded characters. -/
def decode (tree : Node) (bytes : List Nat) (l2 : Nat) : Option (List Nat) :=
  (decodeLoop tree l2 bytes ⟨[], 0, tree⟩).map (·.v)

/-- The constructor pipeline `HFMTree(const std::string &s)`: build the tree
from the text, then derive the code table from the tree. -/
def hfmtree_of_string (s : List Nat) :
    Option (Except BuildError (Node × List (List Bool))) :=
  match build_tree_string s with
  | none => none
  | some (.error e) => some (.error e)
  | some (.ok t) =>
    match generate_code t with
    | none => none
    | some code => some (.ok (t, code))

/-- The serialization format exactly as spec §4.4 states it (the spec side of
refinement claim C7): a leaf is `OPEN`, the symbol, `CLOSE`; an internal node
is `OPEN`, left subtree, one filler byte (a sentinel outside 0–127; the
implementation's is byte 255), right subtree, `CLOSE`; `OPEN = 0x80`,
`CLOSE = 0x81`. -/
def specSerialize : Node → List Nat
  | .null => []
  | .mk .null .null v => [128, v, 129]
  | .mk l r _ => 128 :: (specSerialize l ++ 255 :: (specSerialize r ++ [129]))

/-- The nesting scan with its (always sufficient) canonical fuel; the fuel
argument of `scanClose` never influences the result when it exceeds the list
length. -/
def scanC (l : List Nat) (c : Nat) : Option Nat := scanClose (l.length + 1) l c

/-- Root-to-node walk along a bit path (`true` = right child): the
specification view shared by code generation and decoding. -/
def follow : Node → List Bool → Option Node
  | t, [] => some t
  | .null, _ :: _ => none
  | .mk l r _, b :: p => follow (if b then r else l) p

/-- The eight bits of a byte, most significant first — the order in which
both the packing loop of `encode` and the mask loop of `decode` visit them. -/
def byteBits (b : Nat) : List Bool :=
  [b.testBit 7, b.testBit 6, b.testBit 5, b.testBit 4,
   b.testBit 3, b.testBit 2, b.testBit 1, b.testBit 0]

/-- All bits of a byte list, most significant bit of each byte first. -/
def allBits (bs : List Nat) : List Bool := bs.flatMap byteBits

/-- Bit-list view of `HFMTree::decode`: the same cursor walk, emission rule
and bit budget as `decBits`/`decodeLoop`, but over one flat list of bits.  It
coincides with the byte-level loops whenever the budget `l2` can only be
exhausted inside the final byte. -/
def bitRun (root : Node) (l2 : Nat) : List Bool → DecSt → Option DecSt
  | [], st => some st
  | b :: bs, st =>
    match st.t with
    | .null => none
    | .mk l r _ =>
      match (if b then r else l) with
      | .null => none
      | .mk l1 r1 v1 =>
        if v1 ≠ 255 then
          if st.count + 1 = l2 then some ⟨st.v ++ [v1], st.count + 1, root⟩
          else bitRun root l2 bs ⟨st.v ++ [v1], st.count + 1, root⟩
        else bitRun root l2 bs ⟨st.v, st.count + 1, .mk l1 r1 v1⟩

/-- Invariant of the packing state after pushing the bit list `B`: `p` is
the mask for the next bit, `out` holds the completed bytes (whose bits are
the completed part of `B`), and the high bits of `cache` are the bits of `B`
past the last completed byte. -/
def PackInv (B : List Bool) (st : EncSt) : Prop :=
  st.p = 2 ^ (7 - B.length % 8) ∧
  st.out.length = B.length / 8 ∧
  (∀ j < 8, st.cache.testBit (7 - j) = ((B.drop (8 * (B.length / 8)))[j]?.getD false)) ∧
  allBits st.out = B.take (8 * (B.length / 8))

/-! ### Basic facts about `Node` -/

lemma Node.wf_ne_null {t : Node} (h : t.wf = true) : t ≠ .null := by
  cases t with
  | null => simp [Node.wf] at h
  | mk l r v => intro hc; cases hc

lemma Node.wf_leaf {v : Nat} (h : v ≤ 127) : (Node.mk .null .null v).wf = true := by
  simp [Node.wf, h]

lemma Node.wf_internal {l r : Node} (hl : l.wf = true) (hr : r.wf = true) :
    (Node.mk l r 255).wf = true := by
  cases l with
  | null => simp [Node.wf] at hl
  | mk la lb lv =>
    cases r with
    | null => simp [Node.wf] at hr
    | mk ra rb rv => simp [Node.wf, hl, hr]

lemma Node.wf_cases {t : Node} (h : t.wf = true) :
    (∃ v, t = .mk .null .null v ∧ v ≤ 127) ∨
    (∃ l r, t = .mk l r 255 ∧ l.wf = true ∧ r.wf = true ∧ l ≠ .null ∧ r ≠ .null) := by
  cases t with
  | null => simp [Node.wf] at h
  | mk l r v =>
    cases l with
    | null =>
      cases r with
      | null =>
        left
        refine ⟨v, rfl, ?_⟩
        simpa [Node.wf] using h
      | mk ra rb rv => simp [Node.wf] at h
    | mk la lb lv =>
      cases r with
      | null => simp [Node.wf] at h
      | mk ra rb rv =>
        right
        simp only [Node.wf, Bool.and_eq_true, decide_eq_true_eq] at h
        refine ⟨_, _, ?_, h.1.2, h.2, ?_, ?_⟩
        · rw [h.1.1]
        · intro hc; cases hc
        · intro hc; cases hc

lemma Node.leafVals_mk {X Y : Node} (v : Nat) (h : ¬(X = Node.null ∧ Y = Node.null)) :
    (Node.mk X Y v).leafVals = X.leafVals ++ Y.leafVals := by
  cases X <;> cases Y <;> simp_all [Node.leafVals]

lemma Node.ht_mk {X Y : Node} (v : Nat) (h : ¬(X = Node.null ∧ Y = Node.null)) :
    (Node.mk X Y v).ht = max X.ht Y.ht + 1 := by
  cases X <;> cases Y <;> simp_all [Node.ht]

lemma Node.isLeafB_mk {X Y : Node} (v : Nat) (h : ¬(X = Node.null ∧ Y = Node.null)) :
    (Node.mk X Y v).isLeafB = false := by
  cases X <;> cases Y <;> simp_all [Node.isLeafB]

/-! ### The heap: `extractMin`, the zero-stripping loop, the merge loop -/

lemma extractMin_spec : ∀ {l : List WNode} {m : WNode} {rest : List WNode},
    extractMin l = some (m, rest) →
    ∃ l1 l2, l = l1 ++ m :: l2 ∧ rest = l1 ++ l2 ∧
      (∀ x ∈ l1, m.weight < x.weight) ∧ (∀ x ∈ l, m.weight ≤ x.weight) := by
  intro l
  induction l with
  | nil => intro m rest h; simp [extractMin] at h
  | cons x t ih =>
    intro m rest h
    cases t with
    | nil =>
      simp only [extractMin, Option.some.injEq, Prod.mk.injEq] at h
      obtain ⟨rfl, rfl⟩ := h
      exact ⟨[], [], rfl, rfl, by simp, by simp⟩
    | cons y t' =>
      rw [extractMin] at h
      cases hm : extractMin (y :: t') with
      | none => rw [hm] at h; exact absurd h (by simp)
      | some pr =>
        obtain ⟨m', rest'⟩ := pr
        rw [hm] at h
        obtain ⟨l1, l2, hl, hr, hlt, hle⟩ := ih hm
        by_cases hw : x.weight ≤ m'.weight
        · simp only [hw, if_true, Option.some.injEq, Prod.mk.injEq] at h
          obtain ⟨rfl, rfl⟩ := h
          refine ⟨[], y :: t', rfl, rfl, by simp, ?_⟩
          intro z hz
          rcases List.mem_cons.1 hz with rfl | hz
          · exact le_rfl
          · exact le_trans hw (hle z hz)
        · simp only [hw, if_false, Option.some.injEq, Prod.mk.injEq] at h
          obtain ⟨rfl, rfl⟩ := h
          refine ⟨x :: l1, l2, by rw [hl]; rfl, by rw [hr]; rfl, ?_, ?_⟩
          · intro z hz
            rcases List.mem_cons.1 hz with rfl | hz
            · omega
            · exact hlt z hz
          · intro z hz
            rcases List.mem_cons.1 hz with rfl | hz
            · omega
            · exact hle z hz

lemma extractMin_ne_nil : ∀ {l : List WNode}, l ≠ [] →
    ∃ m rest, extractMin l = some (m, rest) := by
  intro l
  induction l with
  | nil => intro h; exact absurd rfl h
  | cons x t ih =>
    intro _
    cases t with
    | nil => exact ⟨x, [], rfl⟩
    | cons y t' =>
      obtain ⟨m, rest, hm⟩ := ih (by simp)
      rw [extractMin, hm]
      by_cases h : x.weight ≤ m.weight
      · exact ⟨x, y :: t', by simp [h]⟩
      · exact ⟨m, x :: rest, by simp [h]⟩

lemma extractMin_mem {l : List WNode} {m : WNode} {rest : List WNode}
    (h : extractMin l = some (m, rest)) :
    m ∈ l ∧ ∀ x ∈ rest, x ∈ l := by
  obtain ⟨l1, l2, hl, hr, -, -⟩ := extractMin_spec h
  subst hl; subst hr
  constructor
  · simp
  · intro x hx
    rcases List.mem_append.1 hx with hx | hx
    · exact List.mem_append.2 (Or.inl hx)
    · exact List.mem_append.2 (Or.inr (List.mem_cons_of_mem _ hx))

lemma extractMin_length {l : List WNode} {m : WNode} {rest : List WNode}
    (h : extractMin l = some (m, rest)) : rest.length + 1 = l.length := by
  obtain ⟨l1, l2, hl, hr, -, -⟩ := extractMin_spec h
  subst hl; subst hr
  simp; omega

lemma extractMin_sum {l : List WNode} {m : WNode} {rest : List WNode}
    (h : extractMin l = some (m, rest)) (f : WNode → Nat) :
    (l.map f).sum = f m + (rest.map f).sum := by
  obtain ⟨l1, l2, hl, hr, -, -⟩ := extractMin_spec h
  subst hl; subst hr
  simp; omega

lemma popZerosF_none : ∀ (fuel : Nat) (l : List WNode), (∀ x ∈ l, x.weight = 0) →
    l.length < fuel → popZerosF fuel l = none := by
  intro fuel
  induction fuel with
  | zero => intro l _ h; omega
  | succ f ih =>
    intro l hz hlen
    rw [popZerosF]
    cases hl : l with
    | nil => rfl
    | cons x t =>
      subst hl
      obtain ⟨m, rest, hm⟩ := extractMin_ne_nil (l := x :: t) (by simp)
      have hlen2 := extractMin_length hm
      simp only [hm]
      rw [if_pos (hz m (extractMin_mem hm).1)]
      exact ih rest (fun y hy => hz y ((extractMin_mem hm).2 y hy)) (by omega)

lemma popZerosF_some : ∀ (fuel : Nat) (l : List WNode), (∃ x ∈ l, x.weight ≠ 0) →
    l.length < fuel →
      popZerosF fuel l = some (l.filter fun x => decide (x.weight ≠ 0)) := by
  intro fuel
  induction fuel with
  | zero => intro l _ h; omega
  | succ f ih =>
    intro l hnz hlen
    rw [popZerosF]
    obtain ⟨w, hwl, hw⟩ := hnz
    obtain ⟨m, rest, hm⟩ := extractMin_ne_nil (l := l) (by intro hc; subst hc; cases hwl)
    simp only [hm]
    obtain ⟨l1, l2, hl, hr, hlt, hle⟩ := extractMin_spec hm
    have hlen2 := extractMin_length hm
    by_cases hmz : m.weight = 0
    · rw [if_pos hmz]
      have hwr : w ∈ rest := by
        subst hl; subst hr
        rcases List.mem_append.1 hwl with h1 | h1
        · exact List.mem_append.2 (Or.inl h1)
        · rcases List.mem_cons.1 h1 with rfl | h1
          · exact absurd hmz hw
          · exact List.mem_append.2 (Or.inr h1)
      have heq : rest.filter (fun x => decide (x.weight ≠ 0)) =
          l.filter (fun x => decide (x.weight ≠ 0)) := by
        subst hl; subst hr
        have h1 : List.filter (fun x => decide (x.weight ≠ 0)) l1 = l1 :=
          List.filter_eq_self.2 fun x hx => by
            have := hlt x hx
            simp; omega
        simp only [List.filter_append, List.filter_cons, hmz]
        simp [h1]
      rw [ih rest ⟨w, hwr, hw⟩ (by omega), heq]
    · rw [if_neg hmz]
      congr 1
      have : ∀ x ∈ l, decide (x.weight ≠ 0) = true := by
        intro x hx
        have h1 := hle x hx
        simp; omega
      exact (List.filter_eq_self.2 this).symm

lemma extractMin_mem_iff {l : List WNode} {m : WNode} {rest : List WNode}
    (h : extractMin l = some (m, rest)) : ∀ x, x ∈ l ↔ x = m ∨ x ∈ rest := by
  obtain ⟨l1, l2, hl, hr, -, -⟩ := extractMin_spec h
  subst hl; subst hr
  intro x
  simp only [List.mem_append, List.mem_cons]
  tauto

lemma mergeLoopF_singleton (fuel : Nat) (x : WNode) :
    mergeLoopF fuel [x] = some x.toNode := by
  cases fuel <;> rfl

lemma mergeLoopF_spec : ∀ (fuel : Nat) (l : List WNode), l.length ≤ fuel → 1 ≤ l.length →
    (∀ e ∈ l, e.toNode.wf = true ∧ e.toNode.ht + 1 ≤ e.toNode.leafVals.length) →
    ∃ t, mergeLoopF fuel l = some t ∧ t.wf = true ∧
      (2 ≤ l.length → t.isLeafB = false) ∧
      t.leafVals.length = (l.map fun e => e.toNode.leafVals.length).sum ∧
      t.ht + 1 ≤ t.leafVals.length ∧
      (∀ v, (∃ e ∈ l, v ∈ e.toNode.leafVals) → v ∈ t.leafVals) := by
  intro fuel
  induction fuel with
  | zero => intro l h1 h2 _; omega
  | succ f ih =>
    intro l hlen hone hwf
    cases l with
    | nil => simp at hone
    | cons x t =>
      cases t with
      | nil =>
        refine ⟨x.toNode, rfl, (hwf x (by simp)).1, ?_, by simp, (hwf x (by simp)).2, ?_⟩
        · intro h; simp at h
        · intro v hv
          obtain ⟨e, he, hv⟩ := hv
          simp only [List.mem_singleton] at he
          subst he; exact hv
      | cons y t' =>
        obtain ⟨a, l1, ha⟩ := extractMin_ne_nil (l := x :: y :: t') (by simp)
        have hlen1 := extractMin_length ha
        obtain ⟨b, l2, hb⟩ := extractMin_ne_nil (l := l1) (by
          intro hc
          subst hc
          simp at hlen1)
        have hlen2 := extractMin_length hb
        have haMem : a ∈ x :: y :: t' := (extractMin_mem ha).1
        have hbMem : b ∈ x :: y :: t' := (extractMin_mem ha).2 b (extractMin_mem hb).1
        obtain ⟨haWF, haHt⟩ := hwf a haMem
        obtain ⟨hbWF, hbHt⟩ := hwf b hbMem
        set m : WNode := ⟨a.toNode, b.toNode, 255, a.weight + b.weight⟩ with hm
        have hmNode : m.toNode = .mk a.toNode b.toNode 255 := rfl
        have hpair : ¬(a.toNode = Node.null ∧ b.toNode = Node.null) := by
          intro hc
          exact Node.wf_ne_null haWF hc.1
        have hmWF : m.toNode.wf = true := Node.wf_internal haWF hbWF
        have hmLV : m.toNode.leafVals = a.toNode.leafVals ++ b.toNode.leafVals :=
          Node.leafVals_mk 255 hpair
        have hmHt : m.toNode.ht = max a.toNode.ht b.toNode.ht + 1 :=
          Node.ht_mk 255 hpair
        have hmHtLe : m.toNode.ht + 1 ≤ m.toNode.leafVals.length := by
          rw [hmHt, hmLV, List.length_append]
          omega
        have hred : mergeLoopF (f + 1) (x :: y :: t') = mergeLoopF f (l2 ++ [m]) := by
          simp only [mergeLoopF, ha, hb]
        have hwf' : ∀ e ∈ l2 ++ [m],
            e.toNode.wf = true ∧ e.toNode.ht + 1 ≤ e.toNode.leafVals.length := by
          intro e he
          rcases List.mem_append.1 he with he | he
          · exact hwf e ((extractMin_mem ha).2 e ((extractMin_mem hb).2 e he))
          · simp only [List.mem_singleton] at he
            subst he
            exact ⟨hmWF, hmHtLe⟩
        obtain ⟨tr, htr, htrWF, htrLeaf, htrSum, htrHt, htrMem⟩ :=
          ih (l2 ++ [m]) (by
            simp only [List.length_cons] at hlen hlen1 hlen2
            simp only [List.length_append, List.length_singleton]
            omega) (by simp) hwf'
        have hsum : ((l2 ++ [m]).map fun e => e.toNode.leafVals.length).sum =
            ((x :: y :: t').map fun e => e.toNode.leafVals.length).sum := by
          have e1 := extractMin_sum ha fun e => e.toNode.leafVals.length
          have e2 := extractMin_sum hb fun e => e.toNode.leafVals.length
          rw [e1, e2]
          simp only [List.map_append, List.sum_append, List.map_cons, List.map_nil,
            List.sum_cons, List.sum_nil]
          rw [hmLV, List.length_append]
          omega
        refine ⟨tr, by rw [hred]; exact htr, htrWF, ?_, by rw [htrSum, hsum], htrHt, ?_⟩
        · intro _
          by_cases h2 : 2 ≤ (l2 ++ [m]).length
          · exact htrLeaf h2
          · have hl2 : l2 = [] := by
              simp only [List.length_append, List.length_singleton] at h2
              exact List.eq_nil_of_length_eq_zero (by omega)
            subst hl2
            rw [List.nil_append, mergeLoopF_singleton] at htr
            have : m.toNode = tr := by
              injection htr
            rw [← this, hmNode]
            exact Node.isLeafB_mk 255 hpair
        · intro v hv
          obtain ⟨e, he, hv⟩ := hv
          rcases (extractMin_mem_iff ha e).1 he with rfl | he1
          · exact htrMem v ⟨m, by simp, by rw [hmLV]; exact List.mem_append.2 (Or.inl hv)⟩
          · rcases (extractMin_mem_iff hb e).1 he1 with rfl | he2
            · exact htrMem v ⟨m, by simp, by rw [hmLV]; exact List.mem_append.2 (Or.inr hv)⟩
            · exact htrMem v ⟨e, List.mem_append.2 (Or.inl he2), hv⟩

lemma two_mem_length {α : Type} {L : List α} {a b : α}
    (ha : a ∈ L) (hb : b ∈ L) (hab : a ≠ b) : 2 ≤ L.length := by
  cases L with
  | nil => cases ha
  | cons x t =>
    cases t with
    | nil =>
      simp only [List.mem_singleton] at ha hb
      exact absurd (ha.trans hb.symm) hab
    | cons y t' => simp only [List.length_cons]; omega

lemma sum_map_one {α : Type} : ∀ L : List α, (L.map fun _ => (1 : Nat)).sum = L.length := by
  intro L
  induction L with
  | nil => rfl
  | cons x t ih => simp [ih]; omega

lemma build_tree_heap128 (f : Nat → Nat)
    (h2 : 2 ≤ ((List.range 128).filter fun i => decide (f i ≠ 0)).length) :
    ∃ t, build_tree ((List.range 128).map fun i => ⟨.null, .null, i, f i⟩) = some (.ok t) ∧
      t.wf = true ∧ t.isLeafB = false ∧ t.ht + 1 ≤ 128 ∧
      ∀ i, i < 128 → f i ≠ 0 → i ∈ t.leafVals := by
  set g : Nat → WNode := fun i => ⟨.null, .null, i, f i⟩ with hg
  set heap := (List.range 128).map g with hheap
  set R := (List.range 128).filter fun i => decide (f i ≠ 0) with hR
  have hfilter : heap.filter (fun x => decide (x.weight ≠ 0)) = R.map g := by
    rw [hheap, List.filter_map]
    rfl
  obtain ⟨i0, hi0⟩ : ∃ i, i ∈ R := by
    cases hRc : R with
    | nil => rw [hRc] at h2; simp at h2
    | cons x t => exact ⟨x, by simp⟩
  have hi0f : f i0 ≠ 0 := by
    have := List.mem_filter.1 hi0
    simpa using this.2
  have hnz : ∃ x ∈ heap, x.weight ≠ 0 := by
    refine ⟨g i0, ?_, hi0f⟩
    rw [hheap]
    exact List.mem_map.2 ⟨i0, (List.mem_filter.1 hi0).1, rfl⟩
  have hpop : popZerosF (heap.length + 1) heap = some (R.map g) := by
    rw [popZerosF_some (heap.length + 1) heap hnz (by omega), hfilter]
  have hbt : build_tree heap = (mergeLoopF R.length (R.map g)).map Except.ok := by
    simp only [build_tree, hpop, List.length_map]
    rw [if_neg (by omega), if_neg (by omega)]
  have hwfs : ∀ e ∈ R.map g, e.toNode.wf = true ∧
      e.toNode.ht + 1 ≤ e.toNode.leafVals.length := by
    intro e he
    obtain ⟨i, hiR, rfl⟩ := List.mem_map.1 he
    have hi128 : i < 128 := List.mem_range.1 (List.mem_filter.1 hiR).1
    have hgi : (g i).toNode = Node.mk .null .null i := rfl
    constructor
    · rw [hgi]; exact Node.wf_leaf (by omega)
    · rw [hgi]; simp [Node.ht, Node.leafVals]
  obtain ⟨t, ht, htWF, htLeaf, htSum, htHt, htMem⟩ :=
    mergeLoopF_spec R.length (R.map g) (le_of_eq (List.length_map _ _)) (by
      rw [List.length_map]; omega) hwfs
  have hsum1 : ((R.map g).map fun e => e.toNode.leafVals.length).sum = R.length := by
    have : ((R.map g).map fun e => e.toNode.leafVals.length) = R.map fun _ => 1 := by
      rw [List.map_map]
      refine List.map_congr_left fun i _ => ?_
      have hgi : (g i).toNode = Node.mk .null .null i := rfl
      simp [Function.comp, hgi, Node.leafVals]
    rw [this, sum_map_one]
  have hRle : R.length ≤ 128 := by
    rw [hR]
    simpa using List.length_filter_le (fun i => decide (f i ≠ 0)) (List.range 128)
  refine ⟨t, by rw [hbt, ht]; rfl, htWF, htLeaf (by rw [List.length_map]; omega), by omega, ?_⟩
  intro i hi128 hif
  refine htMem i ⟨g i, ?_, ?_⟩
  · exact List.mem_map.2 ⟨i, List.mem_filter.2 ⟨List.mem_range.2 hi128, by simpa using hif⟩, rfl⟩
  · have hgi : (g i).toNode = Node.mk .null .null i := rfl
    rw [hgi]
    simp [Node.leafVals]

lemma build_tree_counter_ok (w : List Nat)
    (h2 : 2 ≤ ((List.range 128).filter fun i => decide (w.getD i 0 ≠ 0)).length) :
    ∃ t, build_tree_counter w = some (.ok t) ∧
      t.wf = true ∧ t.isLeafB = false ∧ t.ht + 1 ≤ 128 ∧
      ∀ i, i < 128 → w.getD i 0 ≠ 0 → i ∈ t.leafVals :=
  build_tree_heap128 (fun i => w.getD i 0) h2

lemma build_tree_string_ok (s : List Nat) (hs : ∀ c ∈ s, c ≤ 127)
    (hd : ∃ a ∈ s, ∃ b ∈ s, a ≠ b) :
    ∃ t, build_tree_string s = some (.ok t) ∧
      t.wf = true ∧ t.isLeafB = false ∧ t.ht + 1 ≤ 128 ∧
      ∀ c ∈ s, c ∈ t.leafVals := by
  have hall : s.all (· ≤ 127) = true :=
    List.all_eq_true.2 fun c hc => by simpa using hs c hc
  have hmemR : ∀ c ∈ s, c ∈ (List.range 128).filter fun i => decide (s.count i ≠ 0) := by
    intro c hc
    refine List.mem_filter.2 ⟨List.mem_range.2 (by have := hs c hc; omega), ?_⟩
    have : 0 < s.count c := List.count_pos_iff.2 hc
    simp; omega
  obtain ⟨a, haS, b, hbS, hab⟩ := hd
  obtain ⟨t, ht, htWF, htLeaf, htHt, htMem⟩ :=
    build_tree_heap128 (fun i => s.count i)
      (two_mem_length (hmemR a haS) (hmemR b hbS) hab)
  refine ⟨t, ?_, htWF, htLeaf, htHt, ?_⟩
  · rw [build_tree_string, if_pos hall]
    exact ht
  · intro c hc
    have h1 := List.mem_filter.1 (hmemR c hc)
    exact htMem c (List.mem_range.1 h1.1) (by simpa using h1.2)

/-! ### Serialization: `_sequence` versus the spec format, and the nesting scan -/

lemma Node.wf_mk {l r : Node} {v : Nat} (h : (Node.mk l r v).wf = true) :
    (l = .null ∧ r = .null ∧ v ≤ 127) ∨
    (l.wf = true ∧ r.wf = true ∧ v = 255 ∧ l ≠ .null ∧ r ≠ .null) := by
  cases l with
  | null =>
    cases r with
    | null => exact Or.inl ⟨rfl, rfl, by simpa [Node.wf] using h⟩
    | mk a b c => simp [Node.wf] at h
  | mk a b c =>
    cases r with
    | null => simp [Node.wf] at h
    | mk d e g =>
      right
      simp only [Node.wf, Bool.and_eq_true, decide_eq_true_eq] at h
      refine ⟨h.1.2, h.2, h.1.1, ?_, ?_⟩
      · intro hc; cases hc
      · intro hc; cases hc

lemma specSerialize_internal {l r : Node} (v : Nat) (h : ¬(l = Node.null ∧ r = Node.null)) :
    specSerialize (.mk l r v) = 128 :: (specSerialize l ++ 255 :: (specSerialize r ++ [129])) := by
  cases l <;> cases r <;> simp_all [specSerialize]

lemma sequence_eq_spec : ∀ t : Node, t.wf = true → _sequence t = some (specSerialize t) := by
  intro t
  induction t with
  | null => intro h; simp [Node.wf] at h
  | mk l r v ihl ihr =>
    intro h
    rcases Node.wf_mk h with ⟨rfl, rfl, hv⟩ | ⟨hl, hr, rfl, hlne, hrne⟩
    · simp [_sequence, specSerialize, Nat.mod_eq_of_lt (show v < 256 by omega)]
    · cases l with
      | null => exact absurd rfl hlne
      | mk la lb lv =>
        rw [specSerialize_internal 255 (by intro hc; cases hc.1)]
        simp only [_sequence, ihl hl, ihr hr, Option.bind_eq_bind, Option.some_bind]
        norm_num

lemma specSerialize_head (t : Node) (h : t.wf = true) :
    ∃ m, specSerialize t = 128 :: m := by
  rcases Node.wf_cases h with ⟨v0, heq, hv⟩ | ⟨l0, r0, heq, hl, hr, hlne, hrne⟩
  · subst heq; exact ⟨[v0, 129], rfl⟩
  · subst heq
    rw [specSerialize_internal 255 (fun hc => hlne hc.1)]
    exact ⟨_, rfl⟩

lemma specSerialize_length (t : Node) (h : t.wf = true) :
    3 ≤ (specSerialize t).length := by
  rcases Node.wf_cases h with ⟨v0, heq, hv⟩ | ⟨l0, r0, heq, hl, hr, hlne, hrne⟩
  · subst heq; simp [specSerialize]
  · subst heq
    rw [specSerialize_internal 255 (fun hc => hlne hc.1)]
    simp only [List.length_cons, List.length_append]
    omega

lemma scanClose_fuel : ∀ (f1 f2 : Nat) (l : List Nat) (c : Nat),
    l.length < f1 → l.length < f2 → scanClose f1 l c = scanClose f2 l c := by
  intro f1
  induction f1 with
  | zero => intro f2 l c h _; omega
  | succ g ih =>
    intro f2 l c h1 h2
    cases c with
    | zero =>
      cases f2 with
      | zero => omega
      | succ g2 => cases l <;> rfl
    | succ c2 =>
      cases f2 with
      | zero => omega
      | succ g2 =>
        cases l with
        | nil => rfl
        | cons b t =>
          show (scanClose g t _).map (· + 1) = (scanClose g2 t _).map (· + 1)
          rw [ih g2 t _ (by simp at h1; omega) (by simp at h2; omega)]

lemma scanClose_eq_scanC (f : Nat) (l : List Nat) (c : Nat) (h : l.length < f) :
    scanClose f l c = scanC l c :=
  scanClose_fuel f (l.length + 1) l c h (by omega)

lemma scanC_zero (l : List Nat) : scanC l 0 = some 0 := by
  cases l <;> rfl

lemma scanC_cons (b : Nat) (l : List Nat) (c : Nat) :
    scanC (b :: l) (c + 1) =
      (scanC l (if b = 128 then c + 2 else if b = 129 then c else c + 1)).map (· + 1) := by
  show scanClose (l.length + 1 + 1) (b :: l) (c + 1) = _
  rfl

lemma scanC_through_aux (t : Node) (hwf : t.wf = true)
    (htail : ∀ rest c, scanC ((specSerialize t).drop 1 ++ rest) (c + 1) =
      (scanC rest c).map (· + ((specSerialize t).length - 1))) :
    ∀ rest c, scanC (specSerialize t ++ rest) (c + 1) =
      (scanC rest (c + 1)).map (· + (specSerialize t).length) := by
  intro rest c
  obtain ⟨tl, htl⟩ := specSerialize_head t hwf
  have hlen := specSerialize_length t hwf
  have hdrop : (specSerialize t).drop 1 = tl := by rw [htl]; rfl
  have h2 := htail rest (c + 1)
  rw [hdrop] at h2
  rw [htl] at hlen h2 ⊢
  rw [List.cons_append, scanC_cons, if_pos rfl, h2]
  cases h3 : scanC rest (c + 1) with
  | none => rfl
  | some n =>
    simp only [Option.map_some', Option.map_map, Function.comp, List.length_cons,
      Option.some.injEq]
    omega

lemma scanC_tail : ∀ t : Node, t.wf = true → ∀ rest c,
    scanC ((specSerialize t).drop 1 ++ rest) (c + 1) =
      (scanC rest c).map (· + ((specSerialize t).length - 1)) := by
  intro t
  induction t with
  | null => intro h; simp [Node.wf] at h
  | mk l r v ihl ihr =>
    intro h rest c
    rcases Node.wf_mk h with ⟨rfl, rfl, hv⟩ | ⟨hl, hr, rfl, hlne, hrne⟩
    · show scanC ([v, 129] ++ rest) (c + 1) = (scanC rest c).map (· + 2)
      rw [show ([v, 129] ++ rest) = v :: (129 :: rest) from rfl, scanC_cons,
        if_neg (by omega), if_neg (by omega), scanC_cons, if_neg (by omega), if_pos rfl]
      cases h3 : scanC rest c with
      | none => rfl
      | some n => simp
    · have hthl := scanC_through_aux l hl (fun rest c => ihl hl rest c)
      have hthr := scanC_through_aux r hr (fun rest c => ihr hr rest c)
      have hlenl := specSerialize_length l hl
      have hlenr := specSerialize_length r hr
      rw [specSerialize_internal 255 (fun hc => hlne hc.1)]
      show scanC ((specSerialize l ++ 255 :: (specSerialize r ++ [129])) ++ rest) (c + 1) = _
      rw [List.append_assoc, hthl, List.cons_append, scanC_cons,
        if_neg (by omega), if_neg (by omega), List.append_assoc, hthr,
        List.singleton_append, scanC_cons, if_neg (by omega), if_pos rfl]
      cases h3 : scanC rest c with
      | none => rfl
      | some n =>
        simp only [Option.map_some', Option.map_map, Function.comp, List.length_nil,
          List.length_cons, List.length_append, Option.some.injEq]
        omega

/-! ### Deserialization: fuel independence and the parse of a serialized tree -/

lemma build_tree_seqF_fuel : ∀ (f1 f2 : Nat) (l : List Nat),
    l.length < f1 → l.length < f2 → build_tree_seqF f1 l = build_tree_seqF f2 l := by
  intro f1
  induction f1 with
  | zero => intro f2 l h _; omega
  | succ g ih =>
    intro f2 l h1 h2
    cases f2 with
    | zero => omega
    | succ g2 =>
      by_cases hl1 : l.length = 1
      · simp [build_tree_seqF, hl1]
      · simp only [build_tree_seqF, if_neg hl1]
        cases hb : l[1]? with
        | none => rfl
        | some b =>
          simp only []
          by_cases hb128 : b = 128
          · subst hb128
            simp only [if_pos rfl]
            cases hs : scanClose (l.length + 1) (l.drop 2) 1 with
            | none => rfl
            | some consumed =>
              simp only []
              cases hmid : l[2 + consumed]? with
              | none => rfl
              | some mid =>
                simp only []
                have h4 : 1 < l.length := by
                  by_contra hc
                  rw [List.getElem?_eq_none (by omega)] at hb
                  cases hb
                rw [ih g2 ((l.drop 1).take (2 + consumed - 1))
                      (by simp only [List.length_take, List.length_drop]; omega)
                      (by simp only [List.length_take, List.length_drop]; omega),
                    ih g2 ((l.drop (2 + consumed + 1)).take (l.length - 1 - (2 + consumed + 1)))
                      (by simp only [List.length_take, List.length_drop]; omega)
                      (by simp only [List.length_take, List.length_drop]; omega)]
          · simp only [if_neg hb128]

lemma build_tree_seqF_eq (f : Nat) (l : List Nat) (h : l.length < f) :
    build_tree_seqF f l = build_tree_seq l :=
  build_tree_seqF_fuel f (l.length + 1) l h (by omega)

lemma parse_mk (l r : Node) (f : Nat)
    (hl : l.wf = true) (hr : r.wf = true)
    (hpl : build_tree_seq (specSerialize l) = some l)
    (hpr : build_tree_seq (specSerialize r) = some r) :
    build_tree_seq (128 :: (specSerialize l ++ f :: (specSerialize r ++ [129]))) =
      some (.mk l r f) := by
  obtain ⟨tl, htl⟩ := specSerialize_head l hl
  have hlenl := specSerialize_length l hl
  have hlenr := specSerialize_length r hr
  set Sl := specSerialize l with hSl
  set Sr := specSerialize r with hSr
  set L := 128 :: (Sl ++ f :: (Sr ++ [129])) with hLdef
  have hLlen : L.length = Sl.length + Sr.length + 3 := by
    rw [hLdef]; simp; omega
  obtain ⟨g, hg⟩ : ∃ g, L.length + 1 = g + 1 := ⟨L.length, rfl⟩
  show build_tree_seqF (L.length + 1) L = _
  rw [hg, build_tree_seqF]
  rw [if_neg (by omega)]
  have hb1 : L[1]? = some 128 := by
    rw [hLdef, List.getElem?_cons_succ, List.getElem?_append_left (by omega), htl,
      List.getElem?_cons_zero]
  rw [hb1]
  simp only [if_pos rfl]
  have hdrop2 : L.drop 2 = tl ++ (f :: (Sr ++ [129])) := by
    rw [hLdef, htl]
    rfl
  have hscan : scanClose (L.length + 1) (L.drop 2) 1 = some (Sl.length - 1) := by
    rw [scanClose_eq_scanC _ _ _ (by rw [List.length_drop]; omega), hdrop2,
      show tl = Sl.drop 1 from by rw [htl]; rfl]
    have h5 := scanC_tail l hl (f :: (Sr ++ [129])) 0
    simp only [Nat.zero_add] at h5
    rw [← hSl] at h5
    rw [h5, scanC_zero]
    simp
  rw [hscan]
  simp only []
  have harith : 2 + (Sl.length - 1) = Sl.length + 1 := by omega
  have hmid : L[2 + (Sl.length - 1)]? = some f := by
    rw [harith, hLdef, List.getElem?_cons_succ,
      List.getElem?_append_right (by omega), Nat.sub_self, List.getElem?_cons_zero]
  rw [hmid]
  simp only []
  have hleft : (L.drop 1).take (2 + (Sl.length - 1) - 1) = Sl := by
    rw [harith]
    rw [hLdef, List.drop_one, List.tail_cons]
    exact List.take_left' rfl
  have hright : (L.drop (2 + (Sl.length - 1) + 1)).take
      (L.length - 1 - (2 + (Sl.length - 1) + 1)) = Sr := by
    have hcount : L.length - 1 - (2 + (Sl.length - 1) + 1) = Sr.length := by
      rw [hLlen]; omega
    have harith2 : 2 + (Sl.length - 1) + 1 = Sl.length + 2 := by omega
    rw [hcount, harith2]
    have hL2 : L = (128 :: (Sl ++ [f])) ++ (Sr ++ [129]) := by
      rw [hLdef]; simp
    have hlen2 : (128 :: (Sl ++ [f])).length = Sl.length + 2 := by
      simp only [List.length_cons, List.length_append, List.length_nil]
    rw [hL2, ← hlen2, List.drop_left]
    exact List.take_left _ _
  rw [hleft, hright]
  rw [build_tree_seqF_eq g Sl (by omega), build_tree_seqF_eq g Sr (by omega), hpl, hpr]
  simp

lemma build_tree_seq_spec : ∀ t : Node, t.wf = true → build_tree_seq (specSerialize t) = some t := by
  intro t
  induction t with
  | null => intro h; simp [Node.wf] at h
  | mk l r v ihl ihr =>
    intro h
    rcases Node.wf_mk h with ⟨rfl, rfl, hv⟩ | ⟨hl, hr, rfl, hlne, hrne⟩
    · show build_tree_seqF 4 [128, v, 129] = some (.mk .null .null v)
      rw [build_tree_seqF, if_neg (by simp)]
      rw [show [128, v, 129][1]? = some v from by simp]
      simp only [if_neg (show ¬(v = 128) by omega)]
    · rw [specSerialize_internal 255 (fun hc => hlne hc.1)]
      exact parse_mk l r 255 hl hr (ihl hl) (ihr hr)

/-! ### Code generation: table entries are root-to-leaf paths -/

lemma take_set_ge {α : Type} (l : List α) (i n : Nat) (a : α) (h : n ≤ i) :
    (l.set i a).take n = l.take n := by
  apply List.ext_getElem?
  intro j
  rw [List.getElem?_take, List.getElem?_take]
  by_cases hj : j < n
  · rw [if_pos hj, if_pos hj, List.getElem?_set_ne (by omega)]
  · rw [if_neg hj, if_neg hj]

lemma take_succ_set {α : Type} (l : List α) (i : Nat) (a : α) (h : i < l.length) :
    (l.set i a).take (i + 1) = l.take i ++ [a] := by
  apply List.ext_getElem?
  intro j
  rw [List.getElem?_take]
  by_cases hj : j < i + 1
  · rw [if_pos hj]
    by_cases hji : j = i
    · subst hji
      rw [List.getElem?_set_self (by omega),
        List.getElem?_append_right (by rw [List.length_take]; omega)]
      rw [List.length_take]
      simp [Nat.min_eq_left (Nat.le_of_lt h)]
    · rw [List.getElem?_set_ne (by omega),
        List.getElem?_append_left (by rw [List.length_take]; omega),
        List.getElem?_take, if_pos (by omega : j < i)]
  · rw [if_neg hj, List.getElem?_eq_none]
    rw [List.length_append, List.length_take]
    simp only [List.length_cons, List.length_nil]
    omega

lemma gen_spec : ∀ t : Node, t.wf = true → ∀ code path depth,
    path.length = 128 → code.length = 128 → depth + t.ht ≤ 128 →
    ∃ code2 path2, _generate_code t code path depth = some (code2, path2) ∧
      code2.length = 128 ∧ path2.length = 128 ∧
      path2.take depth = path.take depth ∧
      (∀ v, v ∉ t.leafVals → code2[v]? = code[v]?) ∧
      (∀ v ∈ t.leafVals, ∃ rc, code2[v]? = some (path.take depth ++ rc) ∧
        follow t rc = some (.mk .null .null v)) := by
  intro t
  induction t with
  | null => intro h; simp [Node.wf] at h
  | mk l r v ihl ihr =>
    intro h code path depth hplen hclen hdepth
    rcases Node.wf_mk h with ⟨rfl, rfl, hv⟩ | ⟨hl, hr, rfl, hlne, hrne⟩
    · refine ⟨code.set v (path.take depth ++ List.replicate (depth - path.length) false),
        path, ?_, ?_, hplen, rfl, ?_, ?_⟩
      · simp [_generate_code, hv]
      · rw [List.length_set, hclen]
      · intro v0 hv0
        simp only [Node.leafVals, List.mem_singleton] at hv0
        rw [List.getElem?_set_ne (by omega)]
      · intro v0 hv0
        simp only [Node.leafVals, List.mem_singleton] at hv0
        subst hv0
        refine ⟨[], ?_, rfl⟩
        rw [List.getElem?_set_self (by omega)]
        have hz : depth - path.length = 0 := by
          rw [hplen]
          simp [Node.ht] at hdepth
          omega
        rw [hz]
        simp
    · have hht : (Node.mk l r 255).ht = max l.ht r.ht + 1 :=
        Node.ht_mk 255 (fun hc => hlne hc.1)
      rw [hht] at hdepth
      have hdl : depth < path.length := by omega
      obtain ⟨code1, path1, hrec1, hc1len, hp1len, hp1take, hc1not, hc1in⟩ :=
        ihr hr code (path.set depth true) (depth + 1)
          (by rw [List.length_set, hplen]) hclen (by omega)
      have hdl1 : depth < path1.length := by rw [hp1len]; omega
      obtain ⟨code2, path2, hrec2, hc2len, hp2len, hp2take, hc2not, hc2in⟩ :=
        ihl hl code1 (path1.set depth false) (depth + 1)
          (by rw [List.length_set, hp1len]) hc1len (by omega)
      have hlv : (Node.mk l r 255).leafVals = l.leafVals ++ r.leafVals :=
        Node.leafVals_mk 255 (fun hc => hlne hc.1)
      have htake1 : path1.take depth = path.take depth := by
        have h1 : path1.take depth = ((path.set depth true).take (depth + 1)).take depth := by
          rw [← hp1take, List.take_take, Nat.min_eq_left (by omega)]
        rw [h1, List.take_take, Nat.min_eq_left (by omega), take_set_ge _ _ _ _ le_rfl]
      have htake2 : path2.take depth = path.take depth := by
        have h1 : path2.take depth = ((path1.set depth false).take (depth + 1)).take depth := by
          rw [← hp2take, List.take_take, Nat.min_eq_left (by omega)]
        rw [h1, List.take_take, Nat.min_eq_left (by omega), take_set_ge _ _ _ _ le_rfl,
          htake1]
      have hred : _generate_code (.mk l r 255) code path depth = some (code2, path2) := by
        cases l with
        | null => exact absurd rfl hlne
        | mk a b c =>
          simp only [_generate_code, if_pos hdl, hrec1, if_pos hdl1, hrec2]
      refine ⟨code2, path2, hred, hc2len, hp2len, htake2, ?_, ?_⟩
      · intro v0 hv0
        rw [hlv] at hv0
        simp only [List.mem_append] at hv0
        rw [hc2not v0 (fun hc => hv0 (Or.inl hc)), hc1not v0 (fun hc => hv0 (Or.inr hc))]
      · intro v0 hv0
        rw [hlv] at hv0
        rcases List.mem_append.1 hv0 with hmem | hmem
        · obtain ⟨rc, hcv, hfol⟩ := hc2in v0 hmem
          refine ⟨false :: rc, ?_, ?_⟩
          · rw [hcv, take_succ_set _ _ _ hdl1, htake1]
            rw [List.append_assoc]
            rfl
          · cases l with
            | null => exact absurd rfl hlne
            | mk a b c => simpa [follow] using hfol
        · by_cases hmeml : v0 ∈ l.leafVals
          · obtain ⟨rc, hcv, hfol⟩ := hc2in v0 hmeml
            refine ⟨false :: rc, ?_, ?_⟩
            · rw [hcv, take_succ_set _ _ _ hdl1, htake1]
              rw [List.append_assoc]
              rfl
            · cases l with
              | null => exact absurd rfl hlne
              | mk a b c => simpa [follow] using hfol
          · obtain ⟨rc, hcv, hfol⟩ := hc1in v0 hmem
            refine ⟨true :: rc, ?_, ?_⟩
            · rw [hc2not v0 hmeml, hcv, take_succ_set _ _ _ hdl]
              rw [List.append_assoc]
              rfl
            · cases r with
              | null => exact absurd rfl hrne
              | mk a b c => simpa [follow] using hfol

lemma generate_code_spec (t : Node) (hwf : t.wf = true) (hht : t.ht ≤ 128) :
    ∃ code, generate_code t = some code ∧ code.length = 128 ∧
      (∀ v ∈ t.leafVals, ∃ rc, code[v]? = some rc ∧
        follow t rc = some (.mk .null .null v) ∧ (t.isLeafB = false → rc ≠ [])) := by
  obtain ⟨code2, path2, hrec, hclen, -, -, -, hin⟩ :=
    gen_spec t hwf (List.replicate 128 []) (List.replicate 128 false) 0
      (by simp) (by simp) (by omega)
  refine ⟨code2, ?_, hclen, ?_⟩
  · rw [generate_code, hrec]
    rfl
  · intro v hv
    obtain ⟨rc, hcv, hfol⟩ := hin v hv
    refine ⟨rc, by simpa using hcv, hfol, ?_⟩
    intro hleaf hrc
    subst hrc
    simp only [follow, Option.some.injEq] at hfol
    rw [hfol] at hleaf
    simp [Node.isLeafB] at hleaf

/-! ### Bit packing: the `encode` loop state -/

lemma pad_getElem (r : List Bool) (j : Nat) (hr : r.length ≤ 8) (hj : j < 8) :
    (r ++ List.replicate (8 - r.length) false)[j]? = some (r[j]?.getD false) := by
  by_cases hjr : j < r.length
  · rw [List.getElem?_append_left hjr, List.getElem?_eq_getElem hjr]
    rfl
  · rw [List.getElem?_append_right (by omega), List.getElem?_replicate,
      if_pos (by omega), List.getElem?_eq_none (by omega)]
    rfl

lemma byteBits_of_bits (c : Nat) (r : List Bool) (hr : r.length ≤ 8)
    (h : ∀ j < 8, c.testBit (7 - j) = (r[j]?.getD false)) :
    byteBits c = r ++ List.replicate (8 - r.length) false := by
  apply List.ext_getElem?
  intro j
  by_cases hj : j < 8
  · rw [pad_getElem r j hr hj, ← h j hj]
    rcases j with _|_|_|_|_|_|_|_|j
    · simp [byteBits]
    · simp [byteBits]
    · simp [byteBits]
    · simp [byteBits]
    · simp [byteBits]
    · simp [byteBits]
    · simp [byteBits]
    · simp [byteBits]
    · omega
  · rw [List.getElem?_eq_none (by simp [byteBits]; omega),
      List.getElem?_eq_none (by rw [List.length_append, List.length_replicate]; omega)]

lemma packInv_init : PackInv [] ⟨[], 0, 128⟩ := by
  refine ⟨rfl, rfl, ?_, rfl⟩
  intro j hj
  simp [Nat.zero_testBit]

lemma pushBit_inv {B : List Bool} {st : EncSt} (h : PackInv B st) (b : Bool) :
    PackInv (B ++ [b]) (pushBit st b) := by
  obtain ⟨hp, hlen, hbits, hall⟩ := h
  set n := B.length with hn
  set k := n % 8 with hk
  set r := B.drop (8 * (n / 8)) with hrdef
  have hk8 : k < 8 := by omega
  have hr_len : r.length = k := by rw [hrdef, List.length_drop]; omega
  have hcache1 : ∀ j < 8, (if b then st.cache ||| st.p else st.cache).testBit (7 - j) =
      ((r ++ [b])[j]?.getD false) := by
    intro j hj
    have hrhs : ((r ++ [b])[j]?.getD false) =
        if j = k then b else (r[j]?.getD false) := by
      by_cases hjk : j = k
      · subst hjk
        rw [List.getElem?_append_right (by omega), if_pos rfl, hr_len, Nat.sub_self,
          List.getElem?_cons_zero]
        rfl
      · rw [if_neg hjk]
        by_cases hjlt : j < k
        · rw [List.getElem?_append_left (by omega)]
        · have h1 : ([b] : List Bool)[j - r.length]? = none :=
            List.getElem?_eq_none (by simp only [List.length_cons, List.length_nil]; omega)
          have h2 : r[j]? = none := List.getElem?_eq_none (by omega)
          rw [List.getElem?_append_right (by omega), h1, h2]
    rw [hrhs]
    have hpowbit : (2 ^ (7 - k) : Nat).testBit (7 - j) = decide (j = k) := by
      rw [Nat.testBit_two_pow]
      by_cases hjk : j = k
      · simp [hjk]
      · simp only [decide_eq_false hjk]
        exact decide_eq_false (by omega)
    cases b
    · have hif : (if (false : Bool) then st.cache ||| st.p else st.cache) = st.cache := by
        simp
      rw [hif, hbits j hj]
      by_cases hjk : j = k
      · subst hjk
        rw [if_pos rfl, List.getElem?_eq_none (by omega)]
        rfl
      · rw [if_neg hjk]
    · have hif : (if (true : Bool) then st.cache ||| st.p else st.cache) =
          st.cache ||| st.p := by simp
      rw [hif, Nat.testBit_or, hp, hpowbit, hbits j hj]
      by_cases hjk : j = k
      · subst hjk
        rw [if_pos rfl, List.getElem?_eq_none (by omega)]
        simp
      · rw [if_neg hjk]
        simp [hjk]
  by_cases hk7 : k = 7
  · -- the byte is full: flush
    have hp1 : st.p = 1 := by rw [hp, hk7]; norm_num
    have hred : pushBit st b =
        ⟨st.out ++ [if b then st.cache ||| st.p else st.cache], 0, 128⟩ := by
      simp [pushBit, hp1]
    rw [hred]
    have hn8 : 8 * (n / 8) + 7 = n := by omega
    have hlenBb : (B ++ [b]).length = n + 1 := by
      rw [List.length_append]
      simp only [List.length_cons, List.length_nil, ← hn]
    refine ⟨?_, ?_, ?_, ?_⟩
    · show (128 : Nat) = 2 ^ (7 - (B ++ [b]).length % 8)
      rw [hlenBb, show (n + 1) % 8 = 0 by omega]
      norm_num
    · show (st.out ++ [_]).length = (B ++ [b]).length / 8
      rw [List.length_append, hlenBb, hlen]
      simp only [List.length_cons, List.length_nil]
      omega
    · intro j hj
      show (0 : Nat).testBit (7 - j) = _
      rw [Nat.zero_testBit, List.drop_eq_nil_of_le, List.getElem?_nil]
      · rfl
      · rw [hlenBb]
        omega
    · show allBits (st.out ++ [_]) = _
      rw [allBits, List.flatMap_append, ← allBits, hall]
      have hbyte : byteBits (if b then st.cache ||| st.p else st.cache) = r ++ [b] := by
        have h9 := byteBits_of_bits (if b then st.cache ||| st.p else st.cache) (r ++ [b])
          (by rw [List.length_append, hr_len]; simp only [List.length_cons, List.length_nil]
              omega) hcache1
        rw [h9, List.length_append, hr_len]
        simp only [List.length_cons, List.length_nil]
        rw [show 8 - (k + (0 + 1)) = 0 by omega]
        simp
      rw [hlenBb, show 8 * ((n + 1) / 8) = n + 1 by omega, ← hlenBb, List.take_length]
      simp only [List.flatMap_cons, List.flatMap_nil, List.append_nil, hbyte]
      rw [hrdef, ← List.append_assoc, List.take_append_drop]
  · -- no flush: the mask moves down one bit
    have hppos : st.p / 2 = 2 ^ (7 - (k + 1)) := by
      rw [hp, show 7 - k = (7 - (k + 1)) + 1 by omega, pow_succ,
        Nat.mul_div_cancel _ (by omega)]
    have hpne : ¬(st.p / 2 = 0) := by
      rw [hppos]
      exact Nat.pos_iff_ne_zero.1 (Nat.pos_pow_of_pos _ (by omega))
    have hred : pushBit st b =
        ⟨st.out, if b then st.cache ||| st.p else st.cache, st.p / 2⟩ := by
      simp only [pushBit]
      rw [if_neg hpne]
    rw [hred]
    have hlenBb : (B ++ [b]).length = n + 1 := by
      rw [List.length_append]
      simp only [List.length_cons, List.length_nil, ← hn]
    have hmod : (B ++ [b]).length % 8 = k + 1 := by rw [hlenBb]; omega
    have hdiv : (B ++ [b]).length / 8 = n / 8 := by rw [hlenBb]; omega
    have hdropBb : (B ++ [b]).drop (8 * (n / 8)) = r ++ [b] := by
      rw [List.drop_append_eq_append_drop, show 8 * (n / 8) - B.length = 0 by omega]
      rfl
    have htakeBb : (B ++ [b]).take (8 * (n / 8)) = B.take (8 * (n / 8)) := by
      rw [List.take_append_eq_append_take, show 8 * (n / 8) - B.length = 0 by omega]
      simp
    refine ⟨?_, ?_, ?_, ?_⟩
    · show st.p / 2 = _
      rw [hppos, hmod]
    · show st.out.length = _
      rw [hdiv, hlen]
    · intro j hj
      rw [hdiv, hdropBb]
      exact hcache1 j hj
    · show allBits st.out = _
      rw [hdiv, htakeBb]
      exact hall

lemma pushCode_inv : ∀ (c : List Bool) {B : List Bool} {st : EncSt}, PackInv B st →
    PackInv (B ++ c) (pushCode st c) := by
  intro c
  induction c with
  | nil => intro B st h; simpa [pushCode] using h
  | cons b c ih =>
    intro B st h
    have h2 := ih (pushBit_inv h b)
    rw [List.append_assoc] at h2
    simp only [List.singleton_append] at h2
    simpa [pushCode] using h2

lemma encodeLoop_inv (code : List (List Bool)) : ∀ (s : List Nat) (B : List Bool) (st : EncSt),
    PackInv B st → (∀ c ∈ s, (code[c]?).isSome) →
    ∃ st2, encodeLoop code s st = some st2 ∧
      PackInv (B ++ s.flatMap fun c => (code[c]?).getD []) st2 := by
  intro s
  induction s with
  | nil =>
    intro B st h _
    exact ⟨st, rfl, by simpa using h⟩
  | cons c s ih =>
    intro B st h hsome
    obtain ⟨cd, hcd⟩ := Option.isSome_iff_exists.1 (hsome c (by simp))
    obtain ⟨st2, hrun, hinv⟩ :=
      ih (B ++ cd) (pushCode st cd) (pushCode_inv cd h) (fun c hc => hsome c (by simp [hc]))
    refine ⟨st2, ?_, ?_⟩
    · simp only [encodeLoop, hcd]
      exact hrun
    · rw [List.flatMap_cons, hcd]
      simpa [← List.append_assoc] using hinv

lemma extraLoop_pow (j : Nat) (h : j ≤ 7) : extraLoop 8 (2 ^ j) = j + 1 := by
  interval_cases j <;> rfl

lemma encode_spec (code : List (List Bool)) (s : List Nat)
    (hsome : ∀ c ∈ s, (code[c]?).isSome) :
    ∃ bytes, encode code s =
        some ((s.flatMap fun c => (code[c]?).getD []).length, bytes) ∧
      bytes.length = ((s.flatMap fun c => (code[c]?).getD []).length + 7) / 8 ∧
      allBits bytes = (s.flatMap fun c => (code[c]?).getD []) ++
        List.replicate ((8 - (s.flatMap fun c => (code[c]?).getD []).length % 8) % 8) false := by
  set B := s.flatMap fun c => (code[c]?).getD [] with hB
  obtain ⟨st, hrun, hinv⟩ := encodeLoop_inv code s [] ⟨[], 0, 128⟩ packInv_init hsome
  rw [List.nil_append] at hinv
  obtain ⟨hp, hlen, hbits, hall⟩ := hinv
  set n := B.length with hn
  rw [encode, hrun]
  simp only [Option.map_some']
  by_cases hk0 : n % 8 = 0
  · have hp128 : st.p = 128 := by rw [hp, hk0]; norm_num
    rw [if_pos hp128]
    refine ⟨st.out, ?_, ?_, ?_⟩
    · rw [show st.out.length * 8 = n from by rw [hlen]; omega]
    · rw [hlen]; omega
    · have h1 : B.take (8 * (n / 8)) = B := by
        rw [show 8 * (n / 8) = n by omega, hn, List.take_length]
      rw [hall, h1, show (8 - n % 8) % 8 = 0 by omega]
      simp
  · have hpne : ¬ st.p = 128 := by
      rw [hp]
      intro hc
      have hle : (2 : Nat) ^ (7 - n % 8) ≤ 2 ^ 6 := Nat.pow_le_pow_right (by omega) (by omega)
      have h64 : (2 : Nat) ^ 6 = 64 := by norm_num
      omega
    rw [if_neg hpne]
    have hkpos : 1 ≤ n % 8 := by omega
    have hextra : extraLoop 8 st.p = 8 - n % 8 := by
      rw [hp, extraLoop_pow (7 - n % 8) (by omega)]
      omega
    have hbytes : (st.out.length + 1) * 8 - extraLoop 8 st.p = n := by
      rw [hextra, hlen]; omega
    refine ⟨st.out ++ [st.cache], by rw [hbytes], ?_, ?_⟩
    · rw [List.length_append, hlen]
      simp only [List.length_cons, List.length_nil]
      omega
    · rw [allBits, List.flatMap_append, ← allBits, hall]
      have hr_len : (B.drop (8 * (n / 8))).length = n % 8 := by
        rw [List.length_drop]; omega
      have hbyte : byteBits st.cache =
          B.drop (8 * (n / 8)) ++ List.replicate (8 - n % 8) false := by
        have h9 := byteBits_of_bits st.cache (B.drop (8 * (n / 8))) (by omega) hbits
        rw [h9, hr_len]
      simp only [List.flatMap_cons, List.flatMap_nil, List.append_nil]
      rw [hbyte, ← hB, ← List.append_assoc, List.take_append_drop,
        show (8 - n % 8) % 8 = 8 - n % 8 by omega]

lemma length_flatMap_codes (code : List (List Bool)) : ∀ s : List Nat,
    (s.flatMap fun c => (code[c]?).getD []).length =
      (s.map fun c => ((code[c]?).getD []).length).sum := by
  intro s
  induction s with
  | nil => rfl
  | cons c s ih => simp [ih]

/-! ### Decoding: the mask loop seen as a bit-list machine -/

lemma and_two_pow_ne (i j : Nat) : decide (i &&& 2 ^ j ≠ 0) = i.testBit j := by
  rw [Nat.and_two_pow]
  cases h : i.testBit j <;> simp [h, Nat.pos_iff_ne_zero, Nat.pos_pow_of_pos]

lemma decBits_eq_bitRun (root : Node) (l2 i : Nat) : ∀ (ms : List Nat) (st : DecSt),
    decBits root l2 i ms st = bitRun root l2 (ms.map fun p => decide (i &&& p ≠ 0)) st := by
  intro ms
  induction ms with
  | nil => intro st; rfl
  | cons p ps ih =>
    intro st
    obtain ⟨v0, cnt, t⟩ := st
    cases t with
    | null => rfl
    | mk l r nv =>
      by_cases hbit : i &&& p ≠ 0
      · simp only [decBits, bitRun, List.map_cons, if_pos hbit, decide_eq_true hbit, if_true]
        cases r with
        | null => rfl
        | mk rl rr rv =>
          by_cases hv : rv ≠ 255
          · simp only [if_pos hv]
            by_cases hcnt : cnt + 1 = l2
            · simp only [if_pos hcnt]
            · simp only [if_neg hcnt, ih]
          · simp only [if_neg hv, ih]
      · have hd : decide (i &&& p ≠ 0) = false := decide_eq_false hbit
        simp only [decBits, bitRun, List.map_cons, if_neg hbit, hd, Bool.false_eq_true,
          if_false]
        cases l with
        | null => rfl
        | mk ll lr lv =>
          by_cases hv : lv ≠ 255
          · simp only [if_pos hv]
            by_cases hcnt : cnt + 1 = l2
            · simp only [if_pos hcnt]
            · simp only [if_neg hcnt, ih]
          · simp only [if_neg hv, ih]

lemma masks_map_bits (i : Nat) :
    (masks.map fun p => decide (i &&& p ≠ 0)) = byteBits i := by
  have p7 : (2 : Nat) ^ 7 = 128 := by norm_num
  have p6 : (2 : Nat) ^ 6 = 64 := by norm_num
  have p5 : (2 : Nat) ^ 5 = 32 := by norm_num
  have p4 : (2 : Nat) ^ 4 = 16 := by norm_num
  have p3 : (2 : Nat) ^ 3 = 8 := by norm_num
  have p2 : (2 : Nat) ^ 2 = 4 := by norm_num
  have p1 : (2 : Nat) ^ 1 = 2 := by norm_num
  have p0 : (2 : Nat) ^ 0 = 1 := by norm_num
  have e7 := and_two_pow_ne i 7
  have e6 := and_two_pow_ne i 6
  have e5 := and_two_pow_ne i 5
  have e4 := and_two_pow_ne i 4
  have e3 := and_two_pow_ne i 3
  have e2 := and_two_pow_ne i 2
  have e1 := and_two_pow_ne i 1
  have e0 := and_two_pow_ne i 0
  rw [p7] at e7
  rw [p6] at e6
  rw [p5] at e5
  rw [p4] at e4
  rw [p3] at e3
  rw [p2] at e2
  rw [p1] at e1
  rw [p0] at e0
  simp only [masks, byteBits, List.map_cons, List.map_nil, e7, e6, e5, e4, e3, e2, e1, e0]

lemma decByte_eq_bitRun (root : Node) (l2 i : Nat) (st : DecSt) :
    decBits root l2 i masks st = bitRun root l2 (byteBits i) st := by
  rw [decBits_eq_bitRun, masks_map_bits]

lemma bitRun_no_stop (root : Node) (l2 : Nat) : ∀ (bits : List Bool) (st : DecSt),
    st.count + bits.length < l2 →
    (bitRun root l2 bits st = none ∧
      ∀ more, bitRun root l2 (bits ++ more) st = none) ∨
    (∃ st1, bitRun root l2 bits st = some st1 ∧ st1.count = st.count + bits.length ∧
      ∀ more, bitRun root l2 (bits ++ more) st = bitRun root l2 more st1) := by
  intro bits
  induction bits with
  | nil =>
    intro st h
    exact Or.inr ⟨st, rfl, by simp, fun more => rfl⟩
  | cons b bs ih =>
    intro st h
    obtain ⟨v0, cnt, t⟩ := st
    cases t with
    | null => exact Or.inl ⟨rfl, fun more => rfl⟩
    | mk l r nv =>
      simp only [List.length_cons] at h
      cases hch : (if b then r else l) with
      | null =>
        refine Or.inl ⟨?_, fun more => ?_⟩
        · simp only [bitRun, hch]
        · simp only [List.cons_append, bitRun, hch]
      | mk cl cr cv =>
        by_cases hv : cv ≠ 255
        · have hstep : ∀ bs2, bitRun root l2 (b :: bs2) ⟨v0, cnt, .mk l r nv⟩ =
              bitRun root l2 bs2 ⟨v0 ++ [cv], cnt + 1, root⟩ := by
            intro bs2
            simp only [bitRun, hch, if_pos hv, if_neg (show ¬(cnt + 1 = l2) by omega)]
          rcases ih ⟨v0 ++ [cv], cnt + 1, root⟩ (by simp; omega)
            with ⟨h1, h2⟩ | ⟨st1, h1, h2, h3⟩
          · refine Or.inl ⟨by rw [hstep bs, h1], fun more => ?_⟩
            rw [List.cons_append, hstep (bs ++ more)]
            exact h2 more
          · refine Or.inr ⟨st1, by rw [hstep bs, h1], by simp at h2 ⊢; omega, fun more => ?_⟩
            rw [List.cons_append, hstep (bs ++ more)]
            exact h3 more
        · have hstep : ∀ bs2, bitRun root l2 (b :: bs2) ⟨v0, cnt, .mk l r nv⟩ =
              bitRun root l2 bs2 ⟨v0, cnt + 1, .mk cl cr cv⟩ := by
            intro bs2
            simp only [bitRun, hch, if_neg hv]
          rcases ih ⟨v0, cnt + 1, .mk cl cr cv⟩ (by simp; omega)
            with ⟨h1, h2⟩ | ⟨st1, h1, h2, h3⟩
          · refine Or.inl ⟨by rw [hstep bs, h1], fun more => ?_⟩
            rw [List.cons_append, hstep (bs ++ more)]
            exact h2 more
          · refine Or.inr ⟨st1, by rw [hstep bs, h1], by simp at h2 ⊢; omega, fun more => ?_⟩
            rw [List.cons_append, hstep (bs ++ more)]
            exact h3 more

lemma decodeLoop_eq_bitRun (root : Node) (l2 : Nat) : ∀ (bytes : List Nat) (st : DecSt),
    (bytes = [] ∨ st.count + 8 * (bytes.length - 1) < l2) →
    decodeLoop root l2 bytes st = bitRun root l2 (allBits bytes) st := by
  intro bytes
  induction bytes with
  | nil => intro st _; rfl
  | cons i bs ih =>
    intro st h
    rcases h with h | h
    · cases h
    cases bs with
    | nil =>
      show (match decBits root l2 i masks st with
            | none => none
            | some st1 => decodeLoop root l2 [] st1) = _
      rw [decByte_eq_bitRun]
      have hbits : allBits [i] = byteBits i ++ [] := by simp [allBits]
      rw [hbits, List.append_nil]
      cases hres : bitRun root l2 (byteBits i) st <;> rfl
    | cons i2 bs2 =>
      have hlen8 : (byteBits i).length = 8 := rfl
      have hcount : st.count + (byteBits i).length < l2 := by
        simp only [List.length_cons] at h
        rw [hlen8]
        omega
      show (match decBits root l2 i masks st with
            | none => none
            | some st1 => decodeLoop root l2 (i2 :: bs2) st1) = _
      rw [decByte_eq_bitRun]
      have hbits : allBits (i :: i2 :: bs2) = byteBits i ++ allBits (i2 :: bs2) := by
        simp [allBits]
      rw [hbits]
      rcases bitRun_no_stop root l2 (byteBits i) st hcount with ⟨h1, h2⟩ | ⟨st1, h1, h2, h3⟩
      · rw [h1, h2 (allBits (i2 :: bs2))]
      · rw [h1, h3 (allBits (i2 :: bs2))]
        exact ih st1 (Or.inr (by
          simp only [List.length_cons] at h ⊢
          rw [h2, hlen8]
          omega))

lemma bitRun_code (root : Node) (l2 : Nat) :
    ∀ (p : List Bool) (cur : Node) (c : Nat) (v : List Nat) (cnt : Nat) (rest : List Bool),
    cur.wf = true → p ≠ [] → follow cur p = some (.mk .null .null c) →
    cnt + p.length ≤ l2 →
    bitRun root l2 (p ++ rest) ⟨v, cnt, cur⟩ =
      if cnt + p.length = l2 then some ⟨v ++ [c], cnt + p.length, root⟩
      else bitRun root l2 rest ⟨v ++ [c], cnt + p.length, root⟩ := by
  intro p
  induction p with
  | nil => intro cur c v cnt rest _ hne _ _; exact absurd rfl hne
  | cons b p ih =>
    intro cur c v cnt rest hwf hne hfol hle
    rcases Node.wf_cases hwf with ⟨v0, heq, hv0⟩ | ⟨l, r, heq, hl, hr, hlne, hrne⟩
    · subst heq
      exfalso
      cases b <;> cases p <;> simp [follow] at hfol
    · subst heq
      cases p with
      | nil =>
        have hchild : (if b then r else l) = .mk .null .null c := by
          simpa [follow] using hfol
        have hcwf : (Node.mk .null .null c).wf = true := by
          rw [← hchild]
          cases b
          · simpa using hl
          · simpa using hr
        have hc127 : c ≤ 127 := by simpa [Node.wf] using hcwf
        simp only [List.cons_append, List.nil_append, bitRun, hchild,
          List.length_cons, List.length_nil]
        rw [if_pos (show c ≠ 255 by omega)]
        norm_num
      | cons b2 p2 =>
        have hstep : follow (if b then r else l) (b2 :: p2) = some (.mk .null .null c) := by
          simpa [follow] using hfol
        cases hch : (if b then r else l) with
        | null =>
          rw [hch] at hstep
          simp [follow] at hstep
        | mk cl cr cv =>
          rw [hch] at hstep
          have hcwf : (Node.mk cl cr cv).wf = true := by
            rw [← hch]
            cases b
            · exact hl
            · exact hr
          rcases Node.wf_mk hcwf with ⟨hcl, hcr, hcv⟩ | ⟨hclw, hcrw, hcv, hclne, hcrne⟩
          · exfalso
            subst hcl; subst hcr
            cases b2 <;> cases p2 <;> simp [follow] at hstep
          · subst hcv
            have hred : bitRun root l2 ((b :: (b2 :: p2)) ++ rest) ⟨v, cnt, .mk l r 255⟩ =
                bitRun root l2 ((b2 :: p2) ++ rest) ⟨v, cnt + 1, .mk cl cr 255⟩ := by
              simp only [List.cons_append, bitRun, hch,
                if_neg (show ¬((255 : Nat) ≠ 255) by omega)]
            rw [hred, ih (.mk cl cr 255) c v (cnt + 1) rest hcwf (by simp) hstep
              (by simp only [List.length_cons] at hle ⊢; omega)]
            simp only [List.length_cons]
            rw [show cnt + 1 + (p2.length + 1) = cnt + (p2.length + 1 + 1) by omega]

lemma bitRun_symbols (root : Node) (l2 : Nat) (code : List (List Bool)) :
    ∀ (s : List Nat) (v : List Nat) (cnt : Nat) (padding : List Bool),
    s ≠ [] → root.wf = true →
    (∀ c ∈ s, ∃ pc, code[c]? = some pc ∧ pc ≠ [] ∧
      follow root pc = some (.mk .null .null c)) →
    cnt + (s.flatMap fun c => (code[c]?).getD []).length = l2 →
    bitRun root l2 ((s.flatMap fun c => (code[c]?).getD []) ++ padding) ⟨v, cnt, root⟩ =
      some ⟨v ++ s, l2, root⟩ := by
  intro s
  induction s with
  | nil => intro v cnt padding hne; exact absurd rfl hne
  | cons c s ih =>
    intro v cnt padding _ hwf hcodes hlen
    obtain ⟨pc, hpc, hpcne, hfol⟩ := hcodes c (by simp)
    rw [List.flatMap_cons, hpc] at hlen ⊢
    simp only [Option.getD_some] at hlen ⊢
    cases s with
    | nil =>
      simp only [List.flatMap_nil, List.append_nil] at hlen ⊢
      rw [bitRun_code root l2 pc root c v cnt padding hwf hpcne hfol (by omega),
        if_pos (by omega), hlen]
    | cons c2 s2 =>
      obtain ⟨pc2, hpc2, hpc2ne, -⟩ := hcodes c2 (by simp)
      have hrest : 1 ≤ ((c2 :: s2).flatMap fun c3 => (code[c3]?).getD []).length := by
        rw [List.flatMap_cons, hpc2]
        simp only [Option.getD_some, List.length_append]
        have := List.length_pos.2 hpc2ne
        omega
      rw [List.append_assoc]
      rw [List.length_append] at hlen
      rw [bitRun_code root l2 pc root c v cnt _ hwf hpcne hfol (by omega),
        if_neg (by omega)]
      have hout := ih (v ++ [c]) (cnt + pc.length) padding (by simp) hwf
        (fun c3 hc3 => hcodes c3 (by simp [hc3])) (by omega)
      rw [hout]
      simp

lemma decBits_total (root : Node) (l2 i : Nat)
    (hrwf : root.wf = true) (hrleaf : root.isLeafB = false) :
    ∀ (ms : List Nat) (st : DecSt), st.t.wf = true → st.t.isLeafB = false →
    ∃ st1, decBits root l2 i ms st = some st1 ∧
      st1.t.wf = true ∧ st1.t.isLeafB = false := by
  intro ms
  induction ms with
  | nil => intro st h1 h2; exact ⟨st, rfl, h1, h2⟩
  | cons p ps ih =>
    intro st h1 h2
    obtain ⟨v0, cnt, t⟩ := st
    rcases Node.wf_cases h1 with ⟨v1, heq, -⟩ | ⟨l, r, heq, hl, hr, hlne, hrne⟩
    · exfalso
      have heq1 : t = .mk .null .null v1 := heq
      have : (⟨v0, cnt, t⟩ : DecSt).t.isLeafB = true := by
        show t.isLeafB = true
        rw [heq1]
        rfl
      rw [h2] at this
      cases this
    · have heq2 : t = .mk l r 255 := heq
      subst heq2
      have hchwf : (if i &&& p ≠ 0 then r else l).wf = true := by
        by_cases hbit : i &&& p ≠ 0
        · rw [if_pos hbit]; exact hr
        · rw [if_neg hbit]; exact hl
      rcases Node.wf_cases hchwf with ⟨cv, hcheq, hcv⟩ |
        ⟨cl, cr, hcheq, hclw, hcrw, hclne, hcrne⟩
      · have hred : decBits root l2 i (p :: ps) ⟨v0, cnt, .mk l r 255⟩ =
            if cnt + 1 = l2 then some ⟨v0 ++ [cv], cnt + 1, root⟩
            else decBits root l2 i ps ⟨v0 ++ [cv], cnt + 1, root⟩ := by
          simp only [decBits, hcheq, if_pos (show cv ≠ 255 by omega)]
        by_cases hcnt : cnt + 1 = l2
        · exact ⟨⟨v0 ++ [cv], cnt + 1, root⟩, by rw [hred, if_pos hcnt], hrwf, hrleaf⟩
        · obtain ⟨st1, hrun, hwf1, hleaf1⟩ := ih ⟨v0 ++ [cv], cnt + 1, root⟩ hrwf hrleaf
          exact ⟨st1, by rw [hred, if_neg hcnt]; exact hrun, hwf1, hleaf1⟩
      · have hred : decBits root l2 i (p :: ps) ⟨v0, cnt, .mk l r 255⟩ =
            decBits root l2 i ps ⟨v0, cnt + 1, .mk cl cr 255⟩ := by
          simp only [decBits, hcheq, if_neg (show ¬((255 : Nat) ≠ 255) by omega)]
        obtain ⟨st1, hrun, hwf1, hleaf1⟩ := ih ⟨v0, cnt + 1, .mk cl cr 255⟩
          (show (Node.mk cl cr 255).wf = true from hcheq ▸ hchwf)
          (show (Node.mk cl cr 255).isLeafB = false from
            Node.isLeafB_mk 255 (fun hc => hclne hc.1))
        exact ⟨st1, by rw [hred]; exact hrun, hwf1, hleaf1⟩

lemma decodeLoop_total (root : Node) (l2 : Nat)
    (hrwf : root.wf = true) (hrleaf : root.isLeafB = false) :
    ∀ (bytes : List Nat) (st : DecSt), st.t.wf = true → st.t.isLeafB = false →
    ∃ st1, decodeLoop root l2 bytes st = some st1 := by
  intro bytes
  induction bytes with
  | nil => intro st _ _; exact ⟨st, rfl⟩
  | cons i bs ih =>
    intro st h1 h2
    obtain ⟨st1, hrun, hwf1, hleaf1⟩ := decBits_total root l2 i hrwf hrleaf masks st h1 h2
    obtain ⟨st2, hrun2⟩ := ih st1 hwf1 hleaf1
    refine ⟨st2, ?_⟩
    show (match decBits root l2 i masks st with
          | none => none
          | some st1 => decodeLoop root l2 bs st1) = some st2
    rw [hrun]
    exact hrun2

lemma decode_total (t : Node) (hwf : t.wf = true) (hleaf : t.isLeafB = false)
    (bytes : List Nat) (l2 : Nat) : ∃ out, decode t bytes l2 = some out := by
  obtain ⟨st1, h1⟩ := decodeLoop_total t l2 hwf hleaf bytes ⟨[], 0, t⟩ hwf hleaf
  exact ⟨st1.v, by rw [decode, h1]; rfl⟩

lemma encodeLoop_skip (code : List (List Bool)) (c : Nat) (hc : code[c]? = some []) :
    ∀ (s1 s2 : List Nat) (st : EncSt),
    encodeLoop code (s1 ++ c :: s2) st = encodeLoop code (s1 ++ s2) st := by
  intro s1
  induction s1 with
  | nil =>
    intro s2 st
    simp only [List.nil_append, encodeLoop, hc]
    rfl
  | cons a s1 ih =>
    intro s2 st
    simp only [List.cons_append, encodeLoop]
    cases hca : code[a]? with
    | none => simp only [hca]
    | some cd =>
      simp only [hca]
      exact ih s2 (pushCode st cd)

lemma flatMap_ne_nil {α : Type} (f : α → List Bool) {s : List α} {a : α}
    (ha : a ∈ s) (hfa : f a ≠ []) : s.flatMap f ≠ [] := by
  induction s with
  | nil => cases ha
  | cons b s ih =>
    simp only [List.flatMap_cons, ne_eq, List.append_eq_nil]
    rcases List.mem_cons.1 ha with rfl | ha2
    · intro h
      exact hfa h.1
    · intro h
      exact ih ha2 h.2

lemma build_tree_wf (heap : List WNode)
    (hleaves : ∀ e ∈ heap, e.toNode.wf = true ∧ e.toNode.ht + 1 ≤ e.toNode.leafVals.length)
    {t : Node} (h : build_tree heap = some (.ok t)) : t.wf = true := by
  rw [build_tree] at h
  cases hpop : popZerosF (heap.length + 1) heap with
  | none =>
    simp only [hpop] at h
    exact Option.noConfusion h
  | some hp =>
    simp only [hpop] at h
    by_cases h0 : hp.length = 0
    · rw [if_pos h0] at h
      simp at h
    · rw [if_neg h0] at h
      by_cases h1 : hp.length = 1
      · rw [if_pos h1] at h
        simp at h
      · rw [if_neg h1] at h
        have hsub : ∀ e ∈ hp, e ∈ heap := by
          by_cases hnz : ∃ x ∈ heap, x.weight ≠ 0
          · have hps := popZerosF_some (heap.length + 1) heap hnz (by omega)
            rw [hps] at hpop
            injection hpop with hpeq
            intro e he
            rw [← hpeq] at he
            exact List.mem_of_mem_filter he
          · push_neg at hnz
            have hpn := popZerosF_none (heap.length + 1) heap hnz (by omega)
            rw [hpn] at hpop
            cases hpop
        obtain ⟨t2, ht2, hwf2, -, -, -, -⟩ :=
          mergeLoopF_spec hp.length hp le_rfl (by omega)
            (fun e he => hleaves e (hsub e he))
        rw [ht2] at h
        simp only [Option.map_some', Option.some.injEq, Except.ok.injEq] at h
        rw [← h]
        exact hwf2

/-! ### The claims -/

/-- Claim C1: for every byte sequence `s` over symbols in [0,127] that uses at
least two distinct symbols, building the tree and code table from `s`
(`HFMTree(const std::string&)`), encoding `s` (`HFMTree::encode`) and decoding
the resulting bit length and packed bytes with the same tree
(`HFMTree::decode`) returns exactly `s`. -/
theorem c1_round_trip (s : List Nat)
    (hs : ∀ c ∈ s, c ≤ 127)
    (hd : ∃ a ∈ s, ∃ b ∈ s, a ≠ b) :
    ∃ t code l2 bytes,
      hfmtree_of_string s = some (.ok (t, code)) ∧
      encode code s = some (l2, bytes) ∧
      decode t bytes l2 = some s := by
  obtain ⟨t, hbuild, hwf, hleaf, hht, hmem⟩ := build_tree_string_ok s hs hd
  obtain ⟨code, hgen, hclen, hcodes⟩ := generate_code_spec t hwf (by omega)
  have hpipe : hfmtree_of_string s = some (.ok (t, code)) := by
    simp only [hfmtree_of_string, hbuild, hgen]
  have hsome : ∀ c ∈ s, (code[c]?).isSome := by
    intro c hc
    obtain ⟨rc, hrc, -, -⟩ := hcodes c (hmem c hc)
    rw [hrc]
    rfl
  obtain ⟨bytes, henc, hblen, hbits⟩ := encode_spec code s hsome
  have hgood : ∀ c ∈ s, ∃ pc, code[c]? = some pc ∧ pc ≠ [] ∧
      follow t pc = some (.mk .null .null c) := by
    intro c hc
    obtain ⟨rc, hrc, hfol, hne⟩ := hcodes c (hmem c hc)
    exact ⟨rc, hrc, hne hleaf, hfol⟩
  have hsne : s ≠ [] := by
    obtain ⟨a, ha, -⟩ := hd
    intro h
    rw [h] at ha
    cases ha
  have hBpos : 1 ≤ (s.flatMap fun c => (code[c]?).getD []).length := by
    obtain ⟨a, ha, -⟩ := hd
    obtain ⟨pa, hpa, hpane, -⟩ := hgood a ha
    have hne := flatMap_ne_nil (fun c => (code[c]?).getD []) ha (by
      show (code[a]?).getD [] ≠ []
      rw [hpa]
      simpa using hpane)
    have := List.length_pos.2 hne
    omega
  have hloop : decodeLoop t (s.flatMap fun c => (code[c]?).getD []).length bytes
        ⟨[], 0, t⟩ =
      bitRun t (s.flatMap fun c => (code[c]?).getD []).length (allBits bytes)
        ⟨[], 0, t⟩ :=
    decodeLoop_eq_bitRun t _ bytes ⟨[], 0, t⟩ (by
      right
      show 0 + 8 * (bytes.length - 1) < (s.flatMap fun c => (code[c]?).getD []).length
      rw [hblen]
      omega)
  have hsym := bitRun_symbols t (s.flatMap fun c => (code[c]?).getD []).length code s
    [] 0 (List.replicate
      ((8 - (s.flatMap fun c => (code[c]?).getD []).length % 8) % 8) false)
    hsne hwf hgood (by omega)
  refine ⟨t, code, (s.flatMap fun c => (code[c]?).getD []).length, bytes, hpipe, henc, ?_⟩
  rw [decode, hloop, hbits, hsym]
  simp

/-- Witness for C1 at the two-symbol input `[0, 1]`. -/
theorem c1_round_trip_witness :
    (∀ c ∈ ([0, 1] : List Nat), c ≤ 127) ∧
    (∃ a ∈ ([0, 1] : List Nat), ∃ b ∈ ([0, 1] : List Nat), a ≠ b) ∧
    ∃ t code l2 bytes,
      hfmtree_of_string [0, 1] = some (.ok (t, code)) ∧
      encode code [0, 1] = some (l2, bytes) ∧
      decode t bytes l2 = some [0, 1] :=
  ⟨by decide, by decide, c1_round_trip [0, 1] (by decide) (by decide)⟩

/-- Claim C2: for every tree built by `build_tree` from a weight table with at
least two nonzero entries, deserializing the serialized byte stream
(`HFMTree::_sequence` then `HFMTree::build_tree(begin, end)`) yields a tree
whose own serialization is byte-for-byte identical to the original's. -/
theorem c2_serialize_round_trip (w : List Nat)
    (h2 : 2 ≤ ((List.range 128).filter fun i => decide (w.getD i 0 ≠ 0)).length) :
    ∃ t bs t2, build_tree_counter w = some (.ok t) ∧
      _sequence t = some bs ∧ build_tree_seq bs = some t2 ∧ _sequence t2 = some bs := by
  obtain ⟨t, hbt, hwf, -, -, -⟩ := build_tree_counter_ok w h2
  exact ⟨t, specSerialize t, t, hbt, sequence_eq_spec t hwf, build_tree_seq_spec t hwf,
    sequence_eq_spec t hwf⟩

/-- Witness for C2 at the weight table with entries 1 at symbols 0 and 1. -/
theorem c2_serialize_round_trip_witness :
    2 ≤ ((List.range 128).filter fun i =>
      decide ((((List.replicate 128 0).set 0 1).set 1 1).getD i 0 ≠ 0)).length ∧
    ∃ t bs t2,
      build_tree_counter (((List.replicate 128 0).set 0 1).set 1 1) = some (.ok t) ∧
      _sequence t = some bs ∧ build_tree_seq bs = some t2 ∧ _sequence t2 = some bs :=
  ⟨by decide, c2_serialize_round_trip (((List.replicate 128 0).set 0 1).set 1 1) (by decide)⟩

/-- Claim C3 (corrected): `HFMTree::decode` performs no format validation at
all and can raise no error: on every well-formed non-leaf tree it returns a
(possibly short) string for every payload and declared bit length, including
payloads with too few bytes for the declared bit length.  The
`InvalidFormatError` of the claim does not exist in the code. -/
theorem c3_decode_total (t : Node) (hwf : t.wf = true) (hleaf : t.isLeafB = false)
    (bytes : List Nat) (l2 : Nat) :
    ∃ out, decode t bytes l2 = some out :=
  decode_total t hwf hleaf bytes l2

/-- Witness for C3: a concrete well-formed tree, one payload byte, budget 3. -/
theorem c3_decode_total_witness :
    (Node.mk (.mk .null .null 0) (.mk .null .null 1) 255).wf = true ∧
    (Node.mk (.mk .null .null 0) (.mk .null .null 1) 255).isLeafB = false ∧
    ∃ out, decode (Node.mk (.mk .null .null 0) (.mk .null .null 1) 255) [128] 3 =
      some out :=
  ⟨by decide, by decide,
    c3_decode_total (Node.mk (.mk .null .null 0) (.mk .null .null 1) 255)
      (by decide) (by decide) [128] 3⟩

/-- Counterexample to C3 as claimed: a payload of zero bytes with declared bit
length 8 (truncated) decodes to the empty string — no error is raised. -/
theorem c3_truncated_returns_short :
    decode (Node.mk (.mk .null .null 0) (.mk .null .null 1) 255) [] 8 = some [] := rfl

/-- Claim C4 (corrected): a symbol absent from the tree still has a (default,
empty) entry in the 128-slot code table, so `HFMTree::encode` raises no error:
it silently skips the unknown symbol, encoding `s1 ++ [c] ++ s2` exactly as
`s1 ++ s2`.  The `UnknownSymbolError` of the claim does not exist in the
code. -/
theorem c4_encode_skips_unknown (code : List (List Bool)) (c : Nat) (s1 s2 : List Nat)
    (hc : code[c]? = some []) :
    encode code (s1 ++ c :: s2) = encode code (s1 ++ s2) := by
  rw [encode, encode, encodeLoop_skip code c hc]

/-- Witness for C4 on a concrete two-entry table. -/
theorem c4_encode_skips_unknown_witness :
    ([[], [true]] : List (List Bool))[0]? = some [] ∧
    encode [[], [true]] ([1] ++ 0 :: []) = encode [[], [true]] ([1] ++ []) :=
  ⟨by decide, c4_encode_skips_unknown [[], [true]] 0 [1] [] (by decide)⟩

/-- Counterexample to C4 as claimed: with the code table generated from the
tree on symbols {0, 1}, encoding the string "2, 0" — where symbol 2 never
occurred — succeeds and produces exactly the encoding of "0": the unknown
symbol is silently dropped, no error is raised. -/
theorem c4_unknown_symbol_silent :
    (generate_code (Node.mk (.mk .null .null 0) (.mk .null .null 1) 255)).bind
      (fun table => encode table [2, 0]) = some (1, [0]) ∧
    (generate_code (Node.mk (.mk .null .null 0) (.mk .null .null 1) 255)).bind
      (fun table => encode table [0]) = some (1, [0]) :=
  ⟨rfl, rfl⟩

/-- Claim C5 (code bug): on the all-zero weight table the zero-stripping loop
of `build_tree(Heap&)` empties the heap and then reads `heap.front()` of an
empty `std::vector` — undefined behavior (`none` in the model) — before the
"empty text" (`EmptyInputError`) check can run.  The single-nonzero-weight
half of the claim does hold: the model returns `SingleSymbolError`. -/
theorem c5_build_tree_zero_weights :
    build_tree_counter (List.replicate 128 0) = none ∧
    build_tree_counter ((List.replicate 128 0).set 5 7) =
      some (.error .singleSymbol) :=
  ⟨rfl, rfl⟩

/-- Claim C6: the bit length returned by `HFMTree::encode` equals the sum,
over every occurrence of every input symbol, of that symbol's code length. -/
theorem c6_bit_length (code : List (List Bool)) (s : List Nat)
    (hsome : ∀ c ∈ s, (code[c]?).isSome) :
    ∃ bytes, encode code s =
      some ((s.map fun c => ((code[c]?).getD []).length).sum, bytes) := by
  obtain ⟨bytes, henc, -, -⟩ := encode_spec code s hsome
  exact ⟨bytes, by rw [henc, length_flatMap_codes]⟩

/-- Witness for C6 on a concrete table and input. -/
theorem c6_bit_length_witness :
    (∀ c ∈ ([0, 1, 1] : List Nat),
      (([[true], [false, true]] : List (List Bool))[c]?).isSome) ∧
    ∃ bytes, encode [[true], [false, true]] [0, 1, 1] =
      some ((([0, 1, 1] : List Nat).map fun c =>
        ((([[true], [false, true]] : List (List Bool))[c]?).getD []).length).sum,
        bytes) :=
  ⟨by decide, c6_bit_length [[true], [false, true]] [0, 1, 1] (by decide)⟩

/-- Claim C7: on every well-formed tree, `HFMTree::_sequence` produces exactly
the byte stream `specSerialize` that the specification describes: a leaf is
`0x80`, the symbol byte, `0x81`; an internal node is `0x80`, the left
subtree, one filler byte (byte 255 here, a sentinel outside 0–127), the right
subtree, `0x81`. -/
theorem c7_serialization_format (t : Node) (hwf : t.wf = true) :
    _sequence t = some (specSerialize t) :=
  sequence_eq_spec t hwf

/-- Witness for C7 at a concrete three-node tree. -/
theorem c7_serialization_format_witness :
    (Node.mk (.mk .null .null 0) (.mk .null .null 1) 255).wf = true ∧
    _sequence (Node.mk (.mk .null .null 0) (.mk .null .null 1) 255) =
      some (specSerialize (Node.mk (.mk .null .null 0) (.mk .null .null 1) 255)) :=
  ⟨by decide,
    c7_serialization_format (Node.mk (.mk .null .null 0) (.mk .null .null 1) 255)
      (by decide)⟩

/-- Claim C8 (corrected): the deserializer `HFMTree::build_tree(begin, end)`
validates nothing and raises no error: every byte range of length at least two
whose second byte is not `0x80` parses successfully to a leaf carrying that
second byte — the first byte, marker balance, and everything after the second
byte are ignored.  The `InvalidFormatError` of the claim does not exist in
the code. -/
theorem c8_no_validation (a b : Nat) (rest : List Nat) (hb : b ≠ 128) :
    build_tree_seq (a :: b :: rest) = some (.mk .null .null b) := by
  have hif : ¬((a :: b :: rest).length = 1) := by simp
  have hg : (a :: b :: rest)[1]? = some b := by simp
  simp only [build_tree_seq, build_tree_seqF, hg, if_neg hif, if_neg hb]

/-- Witness for C8: the unbalanced stream `0x81, 65` (a CLOSE marker first,
never opened) parses to the leaf 65. -/
theorem c8_no_validation_witness :
    (65 : Nat) ≠ 128 ∧ build_tree_seq [129, 65] = some (.mk .null .null 65) :=
  ⟨by decide, c8_no_validation 129 65 [] (by decide)⟩

/-- Counterexample to C8 as claimed: the stream `0x80, 65` is truncated
mid-token (its OPEN is never closed), yet deserialization returns the leaf 65
instead of failing. -/
theorem c8_truncated_accepted :
    build_tree_seq [128, 65] = some (.mk .null .null 65) := rfl

/-- Claim C9 (corrected): the filler byte is not ignored — the deserializer
stores it verbatim as the internal node's value field: parsing
`0x80 ⧺ S(l) ⧺ [f] ⧺ S(r) ⧺ 0x81` yields the node `mk l r f`.  Since decode
treats every node whose value differs from 255 as a leaf, a filler other than
255 changes decoding (see the counterexample).  The scope is restricted to
subtrees of height at most 127 — the bound every tree the program itself
serializes satisfies — so that the `uint8_t` nesting counter of the source's
scan, kept as a `Nat` by the model, never reaches its wrap-around at 256. -/
theorem c9_filler_stored (l r : Node) (f : Nat) (hl : l.wf = true) (hr : r.wf = true)
    (_hlh : l.ht + 1 ≤ 128) (_hrh : r.ht + 1 ≤ 128) :
    build_tree_seq (128 :: (specSerialize l ++ f :: (specSerialize r ++ [129]))) =
      some (.mk l r f) :=
  parse_mk l r f hl hr (build_tree_seq_spec l hl) (build_tree_seq_spec r hr)

/-- Witness for C9: filler 7 between two concrete leaves is stored as the
parsed node's value. -/
theorem c9_filler_stored_witness :
    (Node.mk .null .null 0).wf = true ∧ (Node.mk .null .null 1).wf = true ∧
    (Node.mk .null .null 0).ht + 1 ≤ 128 ∧ (Node.mk .null .null 1).ht + 1 ≤ 128 ∧
    build_tree_seq (128 :: (specSerialize (.mk .null .null 0) ++ 7 ::
        (specSerialize (.mk .null .null 1) ++ [129]))) =
      some (.mk (.mk .null .null 0) (.mk .null .null 1) 7) :=
  ⟨by decide, by decide, by decide, by decide,
    c9_filler_stored (.mk .null .null 0) (.mk .null .null 1) 7 (by decide) (by decide)
      (by decide) (by decide)⟩

/-- Counterexample to C9 as claimed: two serialized streams that differ only
in one filler byte (index 5: 255 versus 5) deserialize to trees that decode
the same payload (one byte 0, bit length 2) to different outputs, `[0]`
versus `[5, 5]` — the filler value is interpreted by decode's
`value != EOF` leaf test. -/
theorem c9_filler_changes_decode :
    build_tree_seq [128, 128, 128, 0, 129, 255, 128, 1, 129, 129, 255, 128, 2, 129, 129] =
      some (.mk (.mk (.mk .null .null 0) (.mk .null .null 1) 255)
        (.mk .null .null 2) 255) ∧
    build_tree_seq [128, 128, 128, 0, 129, 5, 128, 1, 129, 129, 255, 128, 2, 129, 129] =
      some (.mk (.mk (.mk .null .null 0) (.mk .null .null 1) 5)
        (.mk .null .null 2) 255) ∧
    decode (.mk (.mk (.mk .null .null 0) (.mk .null .null 1) 255)
        (.mk .null .null 2) 255) [0] 2 = some [0] ∧
    decode (.mk (.mk (.mk .null .null 0) (.mk .null .null 1) 5)
        (.mk .null .null 2) 255) [0] 2 = some [5, 5] :=
  ⟨rfl, rfl, rfl, rfl⟩

/-- Claim C10: every tree that `build_tree` successfully produces from a
weight table satisfies the node invariant `Node.wf`: each node is a leaf with
value in [0,127] and two null children, or an internal node with two non-null
children and value 255 (`EOF` as a byte) — the invariant under which decode's
`value != EOF` leaf test is correct. -/
theorem c10_build_tree_wf (w : List Nat) (t : Node)
    (h : build_tree_counter w = some (.ok t)) : t.wf = true := by
  rw [build_tree_counter] at h
  refine build_tree_wf _ ?_ h
  intro e he
  obtain ⟨i, hi, rfl⟩ := List.mem_map.1 he
  have hi128 : i < 128 := List.mem_range.1 hi
  constructor
  · show (Node.mk .null .null i).wf = true
    exact Node.wf_leaf (by omega)
  · show (Node.mk .null .null i).ht + 1 ≤ (Node.mk .null .null i).leafVals.length
    simp [Node.ht, Node.leafVals]

/-- Witness for C10 at the weight table with entries 1 at symbols 0 and 1. -/
theorem c10_build_tree_wf_witness :
    build_tree_counter (((List.replicate 128 0).set 0 1).set 1 1) =
      some (.ok (Node.mk (.mk .null .null 0) (.mk .null .null 1) 255)) ∧
    (Node.mk (.mk .null .null 0) (.mk .null .null 1) 255).wf = true :=
  ⟨by rfl, c10_build_tree_wf (((List.replicate 128 0).set 0 1).set 1 1)
    (Node.mk (.mk .null .null 0) (.mk .null .null 1) 255) (by rfl)⟩

end HFM
